import Mathlib

/-!
Verification development for the asynchronous HTML tokenizer pipeline
(`components/script/dom/servoparser/async_html.rs`).

The development shallowly embeds the subsystem as executable Lean
functions:

* `ParseOperation` mirrors the instruction wire format.
* `ParseOperationExecutor` applies instructions against a minimal model of
  the live node tree (the tree implementation itself is an external
  collaborator of this subsystem, so we only model the facts the executor
  consults: node kinds, parent links, form owners, quirks mode).
* `Sink` is the worker-side emitter with its three routing modes.
* `HtmlTokenizer` pairs the black-box html5ever tokenizer/tree-builder
  internal state (an abstract type `σ` whose behaviour is given by a
  `TokModel`) with the `Sink`.
* `WorkerState`/`SystemState` give an operational semantics of the two
  threads; the worker is reactive, so each message sent to it is processed
  synchronously and its replies are appended to the worker-to-main channel
  `chan`.  Ghost fields (`sentLog`, `toWorkerLog`, `produced`, `applied`)
  record the message and instruction histories that the ordering claims
  are about.

Fatal conditions in the source (panics, failed asserts, `unreachable!`)
are modelled as `Option.none`; the one exception is `insert_node`, whose
freshness assertion is instead proved as an invariant of reachable states.
-/

namespace AsyncHtml

/-- Association list lookup keyed by `Nat`, mirroring `HashMap::get`
on the handle tables of the source (first binding wins, since inserts
cons at the front). -/
def alookup {α : Type} : List (Nat × α) → Nat → Option α
  | [], _ => none
  | (k, v) :: rest, key => if k = key then some v else alookup rest key

/-- Update the first binding of a key in an association list. -/
def alupdate {α : Type} : List (Nat × α) → Nat → (α → α) → List (Nat × α)
  | [], _, _ => []
  | (k, v) :: rest, key, f =>
      if k = key then (k, f v) :: rest else (k, v) :: alupdate rest key f

/-- Remove every binding of a key from an association list. -/
def aerase {α : Type} : List (Nat × α) → Nat → List (Nat × α)
  | [], _ => []
  | (k, v) :: rest, key =>
      if k = key then aerase rest key else (k, v) :: aerase rest key

/-- Keys of an association list. -/
def akeys {α : Type} (l : List (Nat × α)) : List Nat := l.map Prod.fst

/-- Unique identifier for nodes (`type ParseNodeId = usize`). -/
abbrev ParseNodeId := Nat

/-- Quirks mode values (`ServoQuirksMode`). -/
inductive ServoQuirksMode where
  | quirks
  | limitedQuirks
  | noQuirks
deriving DecidableEq

/-- A handle crossing the thread boundary (`struct ParseNode`). -/
structure ParseNode where
  id : ParseNodeId
  qual_name : Option String
deriving DecidableEq

/-- Either a node handle or inline text (`enum NodeOrText`). -/
inductive NodeOrText where
  | node (n : ParseNode)
  | text (s : String)
deriving DecidableEq

/-- A plain-data attribute (`struct Attribute`); qualified names are
modelled as strings since no claim depends on namespace structure. -/
structure Attribute where
  name : String
  value : String
deriving DecidableEq

/-- The instruction wire format (`enum ParseOperation`), one constructor
per case of the source enum. -/
inductive ParseOperation where
  | getTemplateContents (target : ParseNodeId) (contents : ParseNodeId)
  | createElement (node : ParseNodeId) (name : String) (attrs : List Attribute)
      (current_line : Nat)
  | createComment (text : String) (node : ParseNodeId)
  | appendBeforeSibling (sibling : ParseNodeId) (node : NodeOrText)
  | appendBasedOnParentNode (element : ParseNodeId) (prev_element : ParseNodeId)
      (node : NodeOrText)
  | append (parent : ParseNodeId) (node : NodeOrText)
  | appendDoctypeToDocument (name : String) (public_id : String) (system_id : String)
  | addAttrsIfMissing (target : ParseNodeId) (attrs : List Attribute)
  | removeFromParent (target : ParseNodeId)
  | markScriptAlreadyStarted (node : ParseNodeId)
  | reparentChildren (parent : ParseNodeId) (new_parent : ParseNodeId)
  | associateWithForm (target : ParseNodeId) (form : ParseNodeId)
      (element : ParseNodeId) (prev_element : Option ParseNodeId)
  | createPI (node : ParseNodeId) (target : String) (data : String)
  | pop (node : ParseNodeId)
  | setQuirksMode (mode : ServoQuirksMode)
deriving DecidableEq

/-- Kinds of live nodes in the minimal tree model. -/
inductive NodeKind where
  | document
  | element
  | comment
  | processingInstruction
  | doctype
  | text
  | templateContents
deriving DecidableEq

/-- A live node of the document tree.  The tree implementation is external
to this subsystem; we record only the facts the executor consults. -/
structure LiveNode where
  kind : NodeKind
  name : String
  attrs : List Attribute
  alreadyStarted : Bool
deriving DecidableEq

/-- Minimal model of the live document tree owned by the document thread.
Creation, insertion, removal and form association are the external
operations of section 6 of the spec; we model them as updates to a node
arena with parent links. -/
structure DomState where
  nodes : List (Nat × LiveNode)
  nextLive : Nat
  parentOf : List (Nat × Nat)
  formOwner : List (Nat × Nat)
  templateContentsOf : List (Nat × Nat)
  quirksMode : ServoQuirksMode
deriving DecidableEq

/-- Create a fresh live node, returning its identity. -/
def DomState.addNode (d : DomState) (n : LiveNode) : DomState × Nat :=
  ({ d with nodes := (d.nextLive, n) :: d.nodes, nextLive := d.nextLive + 1 },
   d.nextLive)

/-- The kind of a live node, if present. -/
def DomState.kindAt (d : DomState) (live : Nat) : Option NodeKind :=
  (alookup d.nodes live).map LiveNode.kind

/-- Whether a live node currently has a parent. -/
def DomState.hasParentLive (d : DomState) (live : Nat) : Bool :=
  (alookup d.parentOf live).isSome

/-- Make `parent` the parent of `child` (models both `append` and
`insert_before`; sibling order is not tracked by this model). -/
def DomState.setParent (d : DomState) (child parent : Nat) : DomState :=
  { d with parentOf := (child, parent) :: aerase d.parentOf child }

/-- Root of the parent chain of a live node, with explicit fuel. -/
def DomState.rootOfFuel (d : DomState) : Nat → Nat → Nat
  | 0, live => live
  | fuel + 1, live =>
      match alookup d.parentOf live with
      | some p => d.rootOfFuel fuel p
      | none => live

/-- Modelled from the spec: `Element::is_in_same_home_subtree` lives in
the external node implementation (not under this subsystem); per section
4.1 of the spec two nodes are in the same structural subtree when the
roots of their ancestries agree. -/
def DomState.inSameHomeSubtree (d : DomState) (x y : Nat) : Bool :=
  d.rootOfFuel d.parentOf.length x = d.rootOfFuel d.parentOf.length y

/-- Names of form-associatable control elements; stands in for the external
`as_maybe_form_control` of the node implementation. -/
def isFormControlName (s : String) : Bool :=
  s = "input" || s = "button" || s = "select" || s = "textarea" ||
  s = "object" || s = "output" || s = "fieldset"

/-- Uppercased node name, as returned by `NodeName()` for HTML elements. -/
def liveNodeName (n : LiveNode) : String := n.name.toUpper

/-- The handle table plus the live tree it mutates
(`struct ParseOperationExecutor`).  The live tree state travels with the
executor because exactly one executor owns it at any instant (the
single-owner invariant of section 3 of the spec).  `applied` is a ghost
history of the instructions this executor has executed, in order. -/
structure ParseOperationExecutor where
  nodes : List (ParseNodeId × Nat)
  dom : DomState
  applied : List ParseOperation
deriving DecidableEq

namespace ParseOperationExecutor

/-- Insert a new node with the given id (`insert_node`).  The source
asserts that the id is fresh; here the map totally conses the binding and
freshness is proved as an invariant of reachable system states. -/
def insert_node (e : ParseOperationExecutor) (id : ParseNodeId) (live : Nat) :
    ParseOperationExecutor :=
  { e with nodes := (id, live) :: e.nodes }

/-- Resolve a handle to its live node (`get_node`); the source panics when
the handle is unknown, modelled as `none`. -/
def get_node (e : ParseOperationExecutor) (id : ParseNodeId) : Option Nat :=
  alookup e.nodes id

/-- Whether the node behind a handle has a parent (`has_parent_node`). -/
def has_parent_node (e : ParseOperationExecutor) (id : ParseNodeId) : Option Bool := do
  let live ← e.get_node id
  some (e.dom.hasParentLive live)

/-- Whether two handles refer to nodes of the same tree (`same_tree`); both
must be elements, as the source downcasts. -/
def same_tree (e : ParseOperationExecutor) (x y : ParseNodeId) : Option Bool := do
  let lx ← e.get_node x
  let ly ← e.get_node y
  let nx ← alookup e.dom.nodes lx
  let ny ← alookup e.dom.nodes ly
  if nx.kind = NodeKind.element ∧ ny.kind = NodeKind.element then
    some (e.dom.inSameHomeSubtree lx ly)
  else
    none

/-- Append a node-or-text as child of the node behind `parent`
(`ParseOperationExecutor::append`, delegating to the external insert). -/
def appendImpl (e : ParseOperationExecutor) (parent : ParseNodeId)
    (child : NodeOrText) : Option ParseOperationExecutor := do
  let pLive ← e.get_node parent
  match child with
  | .node n => do
      let cLive ← e.get_node n.id
      some { e with dom := e.dom.setParent cLive pLive }
  | .text s =>
      let (d₁, tLive) := e.dom.addNode ⟨.text, s, [], false⟩
      some { e with dom := d₁.setParent tLive pLive }

/-- Append a node-or-text before the node behind `sibling`
(`append_before_sibling`); the sibling must have a parent. -/
def append_before_sibling (e : ParseOperationExecutor) (sibling : ParseNodeId)
    (child : NodeOrText) : Option ParseOperationExecutor := do
  let sLive ← e.get_node sibling
  let pLive ← alookup e.dom.parentOf sLive
  match child with
  | .node n => do
      let cLive ← e.get_node n.id
      some { e with dom := e.dom.setParent cLive pLive }
  | .text s =>
      let (d₁, tLive) := e.dom.addNode ⟨.text, s, [], false⟩
      some { e with dom := d₁.setParent tLive pLive }

/-- Add the given attributes to a live element when their names are not
yet present (external `set_attribute_from_parser` driven by the
`AddAttrsIfMissing` instruction). -/
def addMissingAttrs (old : List Attribute) : List Attribute → List Attribute
  | [] => old
  | a :: rest =>
      if (old.map Attribute.name).contains a.name then addMissingAttrs old rest
      else addMissingAttrs (old ++ [a]) rest

/-- The per-instruction dispatch of
`ParseOperationExecutor::process_operation`, after the document node has
been resolved (the source resolves `get_node(&0)` and downcasts it before
matching).  Every panic of the source (unknown handle, failed downcast)
is `none`. -/
def processOperationBody (e : ParseOperationExecutor) (docLive : Nat) :
    ParseOperation → Option ParseOperationExecutor
    | .getTemplateContents target contents => do
        let tLive ← e.get_node target
        let tNode ← alookup e.dom.nodes tLive
        if tNode.kind = NodeKind.element ∧ tNode.name = "template" then
          match alookup e.dom.templateContentsOf tLive with
          | some cLive => some (e.insert_node contents cLive)
          | none =>
              let (d₁, cLive) := e.dom.addNode ⟨.templateContents, "", [], false⟩
              let d₂ := { d₁ with templateContentsOf := (tLive, cLive) :: d₁.templateContentsOf }
              some ({ e with dom := d₂ }.insert_node contents cLive)
        else none
    | .createElement node name attrs _current_line =>
        let (d₁, live) := e.dom.addNode ⟨.element, name, attrs, false⟩
        some ({ e with dom := d₁ }.insert_node node live)
    | .createComment text node =>
        let (d₁, live) := e.dom.addNode ⟨.comment, text, [], false⟩
        some ({ e with dom := d₁ }.insert_node node live)
    | .appendBeforeSibling sibling node => e.append_before_sibling sibling node
    | .append parent node => e.appendImpl parent node
    | .appendBasedOnParentNode element prev_element node => do
        let hp ← e.has_parent_node element
        if hp then e.append_before_sibling element node
        else e.appendImpl prev_element node
    | .appendDoctypeToDocument name _public_id _system_id =>
        let (d₁, live) := e.dom.addNode ⟨.doctype, name, [], false⟩
        some { e with dom := d₁.setParent live docLive }
    | .addAttrsIfMissing target attrs => do
        let tLive ← e.get_node target
        let tNode ← alookup e.dom.nodes tLive
        if tNode.kind = NodeKind.element then
          some { e with dom :=
            { e.dom with nodes := (alupdate e.dom.nodes tLive
                (fun n => { n with attrs := addMissingAttrs n.attrs attrs })) } }
        else none
    | .removeFromParent target => do
        let tLive ← e.get_node target
        some { e with dom := { e.dom with parentOf := aerase e.dom.parentOf tLive } }
    | .markScriptAlreadyStarted node => do
        let tLive ← e.get_node node
        let tNode ← alookup e.dom.nodes tLive
        if tNode.kind = NodeKind.element ∧ tNode.name = "script" then
          some { e with dom :=
            { e.dom with nodes := (alupdate e.dom.nodes tLive
                (fun n => { n with alreadyStarted := true })) } }
        else none
    | .reparentChildren parent new_parent => do
        let pLive ← e.get_node parent
        let nLive ← e.get_node new_parent
        some { e with dom :=
          { e.dom with parentOf := (e.dom.parentOf.map
              (fun cp => if cp.2 = pLive then (cp.1, nLive) else cp)) } }
    | .associateWithForm target form element prev_element => do
        let tree_node ←
          match prev_element with
          | none => some element
          | some prev => do
              let hp ← e.has_parent_node element
              some (if hp then element else prev)
        let same ← e.same_tree tree_node form
        if same = false then
          some e
        else do
          let fLive ← e.get_node form
          let fNode ← alookup e.dom.nodes fLive
          if fNode.kind = NodeKind.element ∧ fNode.name = "form" then do
            let tLive ← e.get_node target
            let tNode ← alookup e.dom.nodes tLive
            if tNode.kind = NodeKind.element ∧ isFormControlName tNode.name then
              some { e with dom :=
                { e.dom with formOwner := (tLive, fLive) :: aerase e.dom.formOwner tLive } }
            else if liveNodeName tNode = "KEYGEN" then
              some e
            else none
          else none
    | .createPI node target data =>
        let (d₁, live) := e.dom.addNode ⟨.processingInstruction, target, [⟨"data", data⟩], false⟩
        some ({ e with dom := d₁ }.insert_node node live)
    | .pop node => do
        let _ ← e.get_node node
        some e
    | .setQuirksMode mode =>
        some { e with dom := { e.dom with quirksMode := mode } }

/-- Core interpretation of one instruction
(`ParseOperationExecutor::process_operation` without the ghost history):
resolve the document behind handle 0, then dispatch on the instruction. -/
def processOperationCore (e : ParseOperationExecutor) (op : ParseOperation) :
    Option ParseOperationExecutor := do
  let docLive ← e.get_node 0
  let docNode ← alookup e.dom.nodes docLive
  if docNode.kind = NodeKind.document then e.processOperationBody docLive op
  else none

/-- Apply one instruction (`process_operation`), recording it in the ghost
history on success. -/
def process_operation (e : ParseOperationExecutor) (op : ParseOperation) :
    Option ParseOperationExecutor :=
  (e.processOperationCore op).map (fun e' => { e' with applied := e.applied ++ [op] })

/-- Apply a list of instructions front to back (the replay loop of
`end_speculative_parsing` and the receive loops of `feed`/`end`). -/
def applyOps (e : ParseOperationExecutor) : List ParseOperation →
    Option ParseOperationExecutor
  | [] => some e
  | op :: rest => do
      let e' ← e.process_operation op
      applyOps e' rest

/-- Fresh executor (`ParseOperationExecutor::new`): bound to a live
document it pre-populates handle 0 with the document node (live id 0);
unbound (the dummy left behind during speculation) it is empty. -/
def new (withDocument : Bool) (dom : DomState) : ParseOperationExecutor :=
  if withDocument then
    { nodes := [(0, 0)], dom := dom, applied := [] }
  else
    { nodes := [], dom := dom, applied := [] }

end ParseOperationExecutor

/-- Per-handle data kept by the Sink (`struct ParseNodeData`). -/
structure ParseNodeData where
  contents : Option ParseNode
  is_integration_point : Bool
deriving DecidableEq

/-- Default parse node data (`ParseNodeData::default`). -/
def ParseNodeData.default : ParseNodeData := ⟨none, false⟩

/-- Routing mode of the Sink (`enum SinkState`). -/
inductive SinkState where
  /-- Default state of the Sink, sends all parse operations to main thread. -/
  | sendingParseOps
  /-- State assumed while parsing the contents of `document.write` on the
  main thread; holds the live executor. -/
  | parsingDocWriteContents (executor : ParseOperationExecutor)
  /-- Speculative parsing mode, enqueues parse operations in parser thread. -/
  | bufferingParseOperations (queue : List ParseOperation)
deriving DecidableEq

/-- The worker-side instruction emitter (`struct Sink`).  The channel
sender is not a field here: emitted messages are returned to the caller.
`produced` is a ghost history of every instruction this Sink translated,
in production order. -/
structure Sink where
  current_line : Nat
  parse_node_data : List (ParseNodeId × ParseNodeData)
  next_parse_node_id : ParseNodeId
  document_node : ParseNode
  state : SinkState
  produced : List ParseOperation
deriving DecidableEq

/-- Result of feeding the black-box tokenizer (`TokenizerResult`). -/
inductive TokenizerResult where
  | done
  | script (script : ParseNode)
deriving DecidableEq

/-- The html5ever tokenizer plus tree builder around a Sink; the internal
tokenizer/builder state is the abstract black box `σ`. -/
structure HtmlTokenizer (σ : Type) where
  internal : σ
  sink : Sink
deriving DecidableEq

/-- Messages from the parser thread to the main thread
(`enum ParserThreadToMainThreadMessage`).  The snapshot payload is a whole
serialized tokenizer. -/
inductive ParserThreadToMainThreadMessage (σ : Type) where
  | tokenizerResultDone (updated_input : List String) (speculative_parsing_mode : Bool)
  | tokenizerResultScript (script : ParseNode) (updated_input : List String)
      (speculative_parsing_mode : Bool)
  /-- Signifies that the `end` method of the worker tokenizer returned
  (source variant `End`). -/
  | endMsg
  | htmlTokenizerInternalState (st : HtmlTokenizer σ)
  | processOperation (op : ParseOperation)
  | speculativeParseOps (ops : List ParseOperation)
deriving DecidableEq

/-- Messages from the main thread to the parser thread
(`enum MainThreadToParserThreadMessage`). -/
inductive MainThreadToParserThreadMessage (σ : Type) where
  | feed (input : List String) (should_parse_speculatively : Bool)
  /-- html5ever is done parsing the input (source variant `End`). -/
  | endMsg
  | setPlainTextState
  | restoreInternalState (tok_internal_state : HtmlTokenizer σ)
  | flushTreeOps
deriving DecidableEq

namespace Sink

/-- Fresh Sink (`Sink::new`): next handle starts at 1 and handle 0 is the
document node, whose data is pre-registered. -/
def new : Sink :=
  { current_line := 1
    parse_node_data := [(0, ParseNodeData.default)]
    next_parse_node_id := 1
    document_node := ⟨0, none⟩
    state := .sendingParseOps
    produced := [] }

/-- Register data for a handle (`insert_parse_node_data`).  The source
asserts the id is fresh; the map totally conses and freshness is an
invariant of reachable states. -/
def insert_parse_node_data (s : Sink) (id : ParseNodeId) (data : ParseNodeData) : Sink :=
  { s with parse_node_data := (id, data) :: s.parse_node_data }

/-- Look up the data of a handle (`get_parse_node_data`); the source
panics when absent. -/
def get_parse_node_data (s : Sink) (id : ParseNodeId) : Option ParseNodeData :=
  alookup s.parse_node_data id

/-- Mint a fresh handle (`new_parse_node`): returns the current
`next_parse_node_id` and increments it. -/
def new_parse_node (s : Sink) : ParseNode × Sink :=
  let id := s.next_parse_node_id
  let s₁ := s.insert_parse_node_data id ParseNodeData.default
  (⟨id, none⟩, { s₁ with next_parse_node_id := id + 1 })

/-- Route one translated instruction according to the current mode
(`Sink::process_operation`): record it, then either send it as a single
message, push it onto the buffer queue, or apply it directly against the
held executor. -/
def process_operation {σ : Type} (s : Sink) (op : ParseOperation) :
    Option (Sink × List (ParserThreadToMainThreadMessage σ)) :=
  let s₀ := { s with produced := s.produced ++ [op] }
  match s.state with
  | .bufferingParseOperations parse_op_queue =>
      some ({ s₀ with state := .bufferingParseOperations (parse_op_queue ++ [op]) }, [])
  | .sendingParseOps =>
      some (s₀, [.processOperation op])
  | .parsingDocWriteContents executor => do
      let executor' ← executor.process_operation op
      some ({ s₀ with state := .parsingDocWriteContents executor' }, [])

/-- Send all queued parse operations to the main thread
(`flush_tree_ops`); panics unless the Sink is buffering. -/
def flush_tree_ops {σ : Type} (s : Sink) :
    Option (Sink × List (ParserThreadToMainThreadMessage σ)) :=
  match s.state with
  | .bufferingParseOperations parse_op_queue =>
      some ({ s with state := .sendingParseOps }, [.speculativeParseOps parse_op_queue])
  | _ => none

/-- TreeSink callback `get_template_contents`: return the cached contents
handle when present, otherwise mint one, cache it and emit exactly one
`GetTemplateContents` instruction. -/
def get_template_contents {σ : Type} (s : Sink) (target : ParseNode) :
    Option (Sink × ParseNode × List (ParserThreadToMainThreadMessage σ)) := do
  let data ← s.get_parse_node_data target.id
  match data.contents with
  | some contents => some (s, contents, [])
  | none =>
      let (node, s₁) := s.new_parse_node
      let s₂ := { s₁ with parse_node_data := (alupdate s₁.parse_node_data target.id
          (fun d => { d with contents := some node })) }
      do
        let (s₃, msgs) ← process_operation (σ := σ) s₂
          (.getTemplateContents target.id node.id)
        some (s₃, node, msgs)

/-- TreeSink callback `create_element`: mint a handle, record the
integration-point bit, emit one `CreateElement` instruction. -/
def create_element {σ : Type} (s : Sink) (name : String) (attrs : List Attribute) :
    Option (Sink × ParseNode × List (ParserThreadToMainThreadMessage σ)) := do
  let (node₀, s₁) := s.new_parse_node
  let node := { node₀ with qual_name := some name }
  let isIp := attrs.any (fun attr =>
    attr.name = "encoding" &&
      (attr.value.toLower = "text/html" || attr.value.toLower = "application/xhtml+xml"))
  let s₂ := { s₁ with parse_node_data := (alupdate s₁.parse_node_data node.id
      (fun d => { d with is_integration_point := isIp })) }
  let (s₃, msgs) ← process_operation (σ := σ) s₂
    (.createElement node.id name attrs s₂.current_line)
  some (s₃, node, msgs)

/-- TreeSink callback `create_comment`. -/
def create_comment {σ : Type} (s : Sink) (text : String) :
    Option (Sink × ParseNode × List (ParserThreadToMainThreadMessage σ)) := do
  let (node, s₁) := s.new_parse_node
  let (s₂, msgs) ← process_operation (σ := σ) s₁ (.createComment text node.id)
  some (s₂, node, msgs)

/-- TreeSink callback `create_pi`. -/
def create_pi {σ : Type} (s : Sink) (target data : String) :
    Option (Sink × ParseNode × List (ParserThreadToMainThreadMessage σ)) := do
  let (node, s₁) := s.new_parse_node
  let (s₂, msgs) ← process_operation (σ := σ) s₁ (.createPI node.id target data)
  some (s₂, node, msgs)

end Sink

/-- One tree-builder callback of the black-box builder, referencing handles
by their raw ids (the builder holds on to the `ParseNode`s it was given,
whose minting is deterministic). -/
inductive BuilderAction where
  | createElement (name : String) (attrs : List Attribute)
  | createComment (text : String)
  | createPI (target data : String)
  | getTemplateContents (target : ParseNodeId)
  | associateWithForm (target form element : ParseNodeId) (prev : Option ParseNodeId)
  | appendBeforeSibling (sibling : ParseNodeId) (child : NodeOrText)
  | appendBasedOnParentNode (element prev_element : ParseNodeId) (child : NodeOrText)
  | append (parent : ParseNodeId) (child : NodeOrText)
  | appendDoctypeToDocument (name public_id system_id : String)
  | addAttrsIfMissing (target : ParseNodeId) (attrs : List Attribute)
  | removeFromParent (target : ParseNodeId)
  | markScriptAlreadyStarted (target : ParseNodeId)
  | reparentChildren (parent new_parent : ParseNodeId)
  | setQuirksMode (mode : ServoQuirksMode)
  | pop (target : ParseNodeId)
deriving DecidableEq

namespace Sink

/-- Interpret one builder callback on the Sink, mirroring the `TreeSink`
impl: each mutating callback translates into exactly one instruction via
`process_operation` (the thin wrappers build the instruction inline as the
source does). -/
def runAction {σ : Type} (s : Sink) :
    BuilderAction → Option (Sink × List (ParserThreadToMainThreadMessage σ))
  | .createElement name attrs => do
      let (s', _, msgs) ← s.create_element (σ := σ) name attrs
      some (s', msgs)
  | .createComment text => do
      let (s', _, msgs) ← s.create_comment (σ := σ) text
      some (s', msgs)
  | .createPI target data => do
      let (s', _, msgs) ← s.create_pi (σ := σ) target data
      some (s', msgs)
  | .getTemplateContents target => do
      let (s', _, msgs) ← s.get_template_contents (σ := σ) ⟨target, none⟩
      some (s', msgs)
  | .associateWithForm target form element prev =>
      process_operation (σ := σ) s (.associateWithForm target form element prev)
  | .appendBeforeSibling sibling child =>
      process_operation (σ := σ) s (.appendBeforeSibling sibling child)
  | .appendBasedOnParentNode element prev_element child =>
      process_operation (σ := σ) s (.appendBasedOnParentNode element prev_element child)
  | .append parent child =>
      process_operation (σ := σ) s (.append parent child)
  | .appendDoctypeToDocument name public_id system_id =>
      process_operation (σ := σ) s (.appendDoctypeToDocument name public_id system_id)
  | .addAttrsIfMissing target attrs =>
      process_operation (σ := σ) s (.addAttrsIfMissing target attrs)
  | .removeFromParent target =>
      process_operation (σ := σ) s (.removeFromParent target)
  | .markScriptAlreadyStarted target =>
      process_operation (σ := σ) s (.markScriptAlreadyStarted target)
  | .reparentChildren parent new_parent =>
      process_operation (σ := σ) s (.reparentChildren parent new_parent)
  | .setQuirksMode mode =>
      process_operation (σ := σ) s (.setQuirksMode mode)
  | .pop target =>
      process_operation (σ := σ) s (.pop target)

/-- Interpret a list of builder callbacks left to right, concatenating
the emitted messages. -/
def runActions {σ : Type} (s : Sink) :
    List BuilderAction → Option (Sink × List (ParserThreadToMainThreadMessage σ))
  | [] => some (s, [])
  | a :: rest => do
      let (s₁, m₁) ← s.runAction (σ := σ) a
      let (s₂, m₂) ← s₁.runActions (σ := σ) rest
      some (s₂, m₁ ++ m₂)

end Sink

/-- One step of the black-box tokenizer/tree-builder: fed some input it
performs a sequence of builder callbacks, ends in `outcome`, advances its
internal state and leaves some input unconsumed. -/
structure FeedStep (σ : Type) where
  actions : List BuilderAction
  outcome : TokenizerResult
  nextInternal : σ
  leftover : List String

/-- Behaviour of the black-box html5ever tokenizer and tree builder (the
concrete grammar tables are out of scope per section 1 of the spec; the
subsystem is parametric in them). -/
structure TokModel (σ : Type) where
  feedActions : σ → List String → FeedStep σ
  endActions : σ → List BuilderAction × σ
  plaintext : σ → σ

/-- Result of `HtmlTokenizer::feed`: the advanced tokenizer, the terminal
result, the unconsumed input and the messages the Sink emitted. -/
structure FeedRes (σ : Type) where
  tok : HtmlTokenizer σ
  result : TokenizerResult
  leftover : List String
  msgs : List (ParserThreadToMainThreadMessage σ)

/-- `HtmlTokenizer::feed`: run the black-box step, performing its builder
callbacks on the Sink. -/
def HtmlTokenizer.feed {σ : Type} (M : TokModel σ) (t : HtmlTokenizer σ)
    (input : List String) : Option (FeedRes σ) := do
  let step := M.feedActions t.internal input
  let (sink', msgs) ← t.sink.runActions (σ := σ) step.actions
  some { tok := { internal := step.nextInternal, sink := sink' }
         result := step.outcome
         leftover := step.leftover
         msgs := msgs }

/-- Serialization of a tokenizer for a channel crossing (`get_sendable`);
the payload is the whole state, so this is the identity. -/
def HtmlTokenizer.get_sendable {σ : Type} (t : HtmlTokenizer σ) : HtmlTokenizer σ := t

/-- Reconstruction from a serialized tokenizer (`get_self_from_sendable`). -/
def HtmlTokenizer.get_self_from_sendable {σ : Type} (t : HtmlTokenizer σ) :
    HtmlTokenizer σ := t

/-- State of the parser thread: its tokenizer and whether its dispatch
loop has terminated (after `End`). -/
structure WorkerState (σ : Type) where
  tok : HtmlTokenizer σ
  done : Bool

/-- One iteration of the worker dispatch loop (`fn run`): process one
main-to-worker message, returning the new worker state and the messages
sent back to the main thread, in order.  `none` models a worker panic or
a send to a terminated worker. -/
def workerStep {σ : Type} (M : TokModel σ) (w : WorkerState σ) :
    MainThreadToParserThreadMessage σ →
    Option (WorkerState σ × List (ParserThreadToMainThreadMessage σ))
  | m =>
    if w.done then none else
    match m with
    | .feed input should_parse_speculatively =>
        let (tok₀, intro) :=
          if should_parse_speculatively then
            ({ w.tok with sink := { w.tok.sink with state := .bufferingParseOperations [] } },
             [ParserThreadToMainThreadMessage.htmlTokenizerInternalState w.tok.get_sendable])
          else (w.tok, [])
        (HtmlTokenizer.feed M tok₀ input).map (fun fr =>
          let terminal :=
            match fr.result with
            | .done =>
                ParserThreadToMainThreadMessage.tokenizerResultDone fr.leftover
                  should_parse_speculatively
            | .script script =>
                ParserThreadToMainThreadMessage.tokenizerResultScript script fr.leftover
                  should_parse_speculatively
          ({ w with tok := fr.tok }, intro ++ fr.msgs ++ [terminal]))
    | .flushTreeOps =>
        (w.tok.sink.flush_tree_ops (σ := σ)).map (fun sm =>
          ({ w with tok := { w.tok with sink := sm.1 } }, sm.2))
    | .restoreInternalState tok_internal_state =>
        some ({ w with tok := HtmlTokenizer.get_self_from_sendable tok_internal_state }, [])
    | .setPlainTextState =>
        some ({ w with tok := { w.tok with internal := M.plaintext w.tok.internal } }, [])
    | .endMsg =>
        let (acts, internal') := M.endActions w.tok.internal
        (w.tok.sink.runActions (σ := σ) acts).map (fun sm =>
          ({ tok := { internal := internal', sink := sm.1 }, done := true },
           sm.2 ++ [ParserThreadToMainThreadMessage.endMsg]))

/-- Modelled from the spec: the caller-owned input buffer (html5ever
`BufferQueue` with the speculation extension, which is not under `src/`).
`notify_speculative_parsing_has_started` saves a copy of the buffered
input; `update_with_new_data(None)` restores that copy (rollback case)
and `update_with_new_data(Some new)` replaces the content (confirmed
case). -/
structure BufferQueue where
  buffers : List String
  savedForSpeculation : Option (List String)
deriving DecidableEq

/-- Save a copy of the current content for a possible rollback. -/
def BufferQueue.notifySpeculativeParsingHasStarted (b : BufferQueue) : BufferQueue :=
  { b with savedForSpeculation := some b.buffers }

/-- Replace or restore the buffered content (see `BufferQueue`). -/
def BufferQueue.updateWithNewData (b : BufferQueue) :
    Option (List String) → Option BufferQueue
  | some bs => some ⟨bs, none⟩
  | none => b.savedForSpeculation.map (fun saved => ⟨saved, none⟩)

/-- State of the main-thread facade (`enum TokenizerState`). -/
inductive TokenizerState (σ : Type) where
  /-- Default state, executes parse ops sent to it by the Sink. -/
  | executingParseOps
  /-- Tokenizer needed to parse content from `document.write` calls
  synchronously. -/
  | speculativeParsing (tokenizer : HtmlTokenizer σ) (document_write_called : Bool)
      (waiting_on_script : Bool)

/-- The main-thread tokenizer facade (`struct Tokenizer`), without its
channel endpoints (those live in `SystemState`).  `pending_result` stores
the live script node of a finished speculation (`None` inside the outer
`some` means the speculation ended `Done`). -/
structure Tokenizer (σ : Type) where
  state : TokenizerState σ
  executor : ParseOperationExecutor
  pending_result : Option (Option Nat)

/-- The whole two-thread system.  `chan` holds the worker-to-main messages
sent but not yet received; the worker is reactive, so each main-to-worker
message is processed synchronously on send.  `sentLog` and `toWorkerLog`
are ghost histories of all messages ever sent in each direction. -/
structure SystemState (σ : Type) where
  main : Tokenizer σ
  worker : WorkerState σ
  chan : List (ParserThreadToMainThreadMessage σ)
  sentLog : List (ParserThreadToMainThreadMessage σ)
  toWorkerLog : List (MainThreadToParserThreadMessage σ)

/-- Send one message to the worker and append its replies to the channel. -/
def sendToWorker {σ : Type} (M : TokModel σ) (sys : SystemState σ)
    (m : MainThreadToParserThreadMessage σ) : Option (SystemState σ) :=
  (workerStep M sys.worker m).map (fun wr =>
    { sys with
        worker := wr.1
        chan := sys.chan ++ wr.2
        sentLog := sys.sentLog ++ wr.2
        toWorkerLog := sys.toWorkerLog ++ [m] })

/-- Result type of `feed` (`Result<(), DomRoot<HTMLScriptElement>>`): on
`err` it carries the live node id of the blocking script. -/
inductive FeedResult where
  | ok
  | err (script : Nat)
deriving DecidableEq

/-- Resolve a script handle against an executor and check it is a script
element (`get_node` + `downcast::<HTMLScriptElement>().unwrap()`). -/
def resolveScript (e : ParseOperationExecutor) (script : ParseNode) : Option Nat := do
  let live ← e.get_node script.id
  let n ← alookup e.dom.nodes live
  if n.kind = NodeKind.element ∧ n.name = "script" then some live else none

/-- The receive loop inside `Tokenizer::feed` (executing case): apply each
`ProcessOperation` in arrival order until the terminal message, asserting
that the terminal was not produced speculatively. -/
def feedLoop {σ : Type} (e : ParseOperationExecutor) :
    List (ParserThreadToMainThreadMessage σ) →
    Option (ParseOperationExecutor × FeedResult × List String ×
      List (ParserThreadToMainThreadMessage σ))
  | [] => none
  | .processOperation op :: rest => do
      let e' ← e.process_operation op
      feedLoop e' rest
  | .tokenizerResultDone updated_input speculative_parsing_mode :: rest =>
      if speculative_parsing_mode then none
      else some (e, .ok, updated_input, rest)
  | .tokenizerResultScript script updated_input speculative_parsing_mode :: rest =>
      if speculative_parsing_mode then none
      else do
        let live ← resolveScript e script
        some (e, .err live, updated_input, rest)
  | _ => none

/-- The receive loop inside `Tokenizer::end`: apply trailing
`ProcessOperation`s until the end acknowledgement. -/
def endLoop {σ : Type} (e : ParseOperationExecutor) :
    List (ParserThreadToMainThreadMessage σ) →
    Option (ParseOperationExecutor × List (ParserThreadToMainThreadMessage σ))
  | [] => none
  | .processOperation op :: rest => do
      let e' ← e.process_operation op
      endLoop e' rest
  | .endMsg :: rest => some (e, rest)
  | _ => none

namespace SystemState

/-- `Tokenizer::feed`.  In the speculative state this is the
`document.write` path: it feeds the embedded tokenizer directly, latches
`document_write_called` and discards any pending result.  In the executing
state a pending speculative result is consumed if present; otherwise the
input is sent to the worker and its replies are executed until the
terminal message. -/
def feed {σ : Type} (M : TokModel σ) (sys : SystemState σ) (input : BufferQueue) :
    Option (SystemState σ × FeedResult × BufferQueue) :=
  match sys.main.state with
  | .speculativeParsing tokenizer _document_write_called waiting_on_script => do
      -- only `document.write` reaches this branch; the flag latches and the
      -- stale pending result is dropped before feeding the embedded tokenizer
      let fr ← HtmlTokenizer.feed M tokenizer input.buffers
      -- the embedded Sink has no channel sender; any attempt to send would panic
      if fr.msgs.isEmpty then
        let res ←
          match fr.result with
          | .done => some FeedResult.ok
          | .script script =>
              match fr.tok.sink.state with
              | .parsingDocWriteContents executor =>
                  (resolveScript executor script).map FeedResult.err
              | _ => none
        some ({ sys with main :=
                 { state := .speculativeParsing fr.tok true waiting_on_script
                   executor := sys.main.executor
                   pending_result := none } },
              res, { input with buffers := fr.leftover })
      else none
  | .executingParseOps =>
      match sys.main.pending_result with
      | some result =>
          some ({ sys with main := { sys.main with pending_result := none } },
                (match result with | none => FeedResult.ok | some live => FeedResult.err live),
                input)
      | none => do
          let sys₁ ← sendToWorker M sys (.feed input.buffers false)
          let (e', r, updated_input, rest) ← feedLoop sys₁.main.executor sys₁.chan
          some ({ sys₁ with
                    main := { sys₁.main with executor := e' }
                    chan := rest },
                r, ⟨updated_input, none⟩)

/-- `Tokenizer::start_speculative_parsing`: send a speculative feed,
receive the internal-state snapshot, rebuild a tokenizer from it,
transplant the live executor into its Sink (leaving a dummy executor
behind) and enter the speculative state. -/
def start_speculative_parsing {σ : Type} (M : TokModel σ) (sys : SystemState σ)
    (input : BufferQueue) : Option (SystemState σ × BufferQueue) := do
  let input₁ := input.notifySpeculativeParsingHasStarted
  let sys₁ ← sendToWorker M sys (.feed input₁.buffers true)
  match sys₁.chan with
  | .htmlTokenizerInternalState sendable_tok :: rest =>
      let tokenizer₀ := HtmlTokenizer.get_self_from_sendable sendable_tok
      let tokenizer := { tokenizer₀ with sink :=
        { tokenizer₀.sink with state := .parsingDocWriteContents sys₁.main.executor } }
      some ({ sys₁ with
                chan := rest
                main := { state := .speculativeParsing tokenizer false false
                          executor := ParseOperationExecutor.new false
                            ⟨[], 0, [], [], [], .noQuirks⟩
                          pending_result := sys₁.main.pending_result } },
            input₁)
  | _ => none

/-- `Tokenizer::end_speculative_parsing`.  With a pending
parsing-blocking script it only records that fact.  Otherwise it receives
the deferred terminal message, swaps the live executor back out of the
embedded tokenizer, and either rolls back (write seen: restore the
embedded state into the worker, discarding the buffer) or confirms
(flush the buffered instructions, apply them, store the pending result). -/
def end_speculative_parsing {σ : Type} (M : TokModel σ) (sys : SystemState σ)
    (input : BufferQueue) (document_has_pending_parsing_blocking_script : Bool) :
    Option (SystemState σ × BufferQueue) :=
  match sys.main.state with
  | .executingParseOps => none
  | .speculativeParsing tokenizer document_write_called _waiting_on_script =>
      -- the waiting flag is set to the argument (intended semantics per the
      -- design note of the spec: the flag is genuinely mutable)
      if document_has_pending_parsing_blocking_script then
        some ({ sys with main := { sys.main with
                  state := .speculativeParsing tokenizer document_write_called true } },
              input)
      else
        match sys.chan with
        | [] => none
        | msg :: rest =>
          match tokenizer.sink.state with
          | .parsingDocWriteContents executor =>
              -- swap: the facade repossesses the live executor, the dummy
              -- goes into the embedded Sink
              let realExec := executor
              let tokSwapped := { tokenizer with sink :=
                { tokenizer.sink with state := .parsingDocWriteContents sys.main.executor } }
              if document_write_called then do
                let tok_internal_state := HtmlTokenizer.get_sendable
                  { tokSwapped with sink := { tokSwapped.sink with state := .sendingParseOps } }
                let sys₂ ← sendToWorker M { sys with chan := rest }
                  (.restoreInternalState tok_internal_state)
                let input' ← input.updateWithNewData none
                if sys.main.pending_result = none then
                  some ({ sys₂ with main :=
                           { state := .executingParseOps
                             executor := realExec
                             pending_result := none } },
                        input')
                else none
              else do
                let sys₂ ← sendToWorker M { sys with chan := rest } .flushTreeOps
                match sys₂.chan with
                | .speculativeParseOps speculative_operations :: rest₂ => do
                    let exec' ← realExec.applyOps speculative_operations
                    let (updated_input, result) ←
                      match msg with
                      | ParserThreadToMainThreadMessage.tokenizerResultDone updated_input
                          speculative_parsing_mode =>
                          if speculative_parsing_mode then
                            some (updated_input, (none : Option Nat))
                          else none
                      | ParserThreadToMainThreadMessage.tokenizerResultScript script
                          updated_input speculative_parsing_mode =>
                          if speculative_parsing_mode then
                            (resolveScript exec' script).map (fun live =>
                              (updated_input, some live))
                          else none
                      | _ => none
                    let input' ← input.updateWithNewData (some updated_input)
                    some ({ sys₂ with
                              chan := rest₂
                              main := { state := .executingParseOps
                                        executor := exec'
                                        pending_result := some result } },
                          input')
                | _ => none
          | _ => none

/-- `Tokenizer::end`: send `End`, execute the remaining parse operations
and return once the end acknowledgement arrives. -/
def endParse {σ : Type} (M : TokModel σ) (sys : SystemState σ) :
    Option (SystemState σ) := do
  let sys₁ ← sendToWorker M sys .endMsg
  let (e', rest) ← endLoop sys₁.main.executor sys₁.chan
  some { sys₁ with
           chan := rest
           main := { sys₁.main with executor := e' } }

/-- `Tokenizer::set_plaintext_state`. -/
def set_plaintext_state {σ : Type} (M : TokModel σ) (sys : SystemState σ) :
    Option (SystemState σ) :=
  sendToWorker M sys .setPlainTextState

end SystemState

/-- Fragment-parsing context handed to `Tokenizer::new` (the context
element and optional form element live in an existing tree). -/
structure FragmentContext where
  contextName : String
  hasFormElem : Bool

/-- The live tree at system start: the fresh document (live id 0) plus,
for fragment parsing, the externally supplied context element (live id 1)
and form element (live id 2). -/
def initialDom (fragment : Option FragmentContext) : DomState :=
  match fragment with
  | none => ⟨[(0, ⟨.document, "#document", [], false⟩)], 1, [], [], [], .noQuirks⟩
  | some fc =>
      if fc.hasFormElem then
        ⟨[(0, ⟨.document, "#document", [], false⟩),
          (1, ⟨.element, fc.contextName, [], false⟩),
          (2, ⟨.element, "form", [], false⟩)], 3, [], [], [], .noQuirks⟩
      else
        ⟨[(0, ⟨.document, "#document", [], false⟩),
          (1, ⟨.element, fc.contextName, [], false⟩)], 2, [], [], [], .noQuirks⟩

/-- `Tokenizer::new`: build the executor bound to the document, the Sink
(minting handles for the fragment context if present, registered in the
executor), and spin up the worker with that Sink. -/
def SystemState.init {σ : Type} (σ₀ : σ) (fragment : Option FragmentContext) :
    SystemState σ :=
  let executor₀ := ParseOperationExecutor.new true (initialDom fragment)
  let sink₀ := Sink.new
  let (executor, sink) :=
    match fragment with
    | none => (executor₀, sink₀)
    | some fc =>
        let (ctxtNode, sink₁) := sink₀.new_parse_node
        let executor₁ := executor₀.insert_node ctxtNode.id 1
        if fc.hasFormElem then
          let (formNode, sink₂) := sink₁.new_parse_node
          (executor₁.insert_node formNode.id 2, sink₂)
        else (executor₁, sink₁)
  { main := { state := .executingParseOps, executor := executor, pending_result := none }
    worker := { tok := { internal := σ₀, sink := sink }, done := false }
    chan := []
    sentLog := []
    toWorkerLog := [] }

/-! ### Association list lemmas -/

theorem akeys_nil {α : Type} : akeys ([] : List (Nat × α)) = [] := rfl

theorem akeys_cons {α : Type} (p : Nat × α) (l : List (Nat × α)) :
    akeys (p :: l) = p.1 :: akeys l := rfl

theorem alookup_mem_akeys {α : Type} {l : List (Nat × α)} {k : Nat} {v : α}
    (h : alookup l k = some v) : k ∈ akeys l := by
  induction l with
  | nil => simp [alookup] at h
  | cons p rest ih =>
      obtain ⟨a, b⟩ := p
      by_cases hk : a = k
      · subst hk; simp [akeys_cons]
      · rw [alookup, if_neg hk] at h
        rw [akeys_cons]
        exact List.mem_cons_of_mem _ (ih h)

theorem alookup_append_left {α : Type} {l₁ l₂ : List (Nat × α)} {k : Nat}
    (h : k ∉ akeys l₁) : alookup (l₁ ++ l₂) k = alookup l₂ k := by
  induction l₁ with
  | nil => simp
  | cons p rest ih =>
      obtain ⟨a, b⟩ := p
      rw [akeys_cons, List.mem_cons] at h
      push_neg at h
      have hne : ¬a = k := fun hc => h.1 hc.symm
      rw [List.cons_append, alookup, if_neg hne]
      exact ih h.2

theorem akeys_append {α : Type} (l₁ l₂ : List (Nat × α)) :
    akeys (l₁ ++ l₂) = akeys l₁ ++ akeys l₂ := by
  simp [akeys]

theorem akeys_alupdate {α : Type} (l : List (Nat × α)) (k : Nat) (f : α → α) :
    akeys (alupdate l k f) = akeys l := by
  induction l with
  | nil => simp [alupdate]
  | cons p rest ih =>
      obtain ⟨a, b⟩ := p
      by_cases hk : a = k
      · simp [alupdate, hk, akeys_cons]
      · rw [alupdate, if_neg hk, akeys_cons, akeys_cons, ih]

theorem alookup_alupdate {α : Type} (l : List (Nat × α)) (k : Nat) (f : α → α)
    (key : Nat) :
    alookup (alupdate l k f) key =
      if k = key then (alookup l key).map f else alookup l key := by
  induction l with
  | nil => simp [alupdate, alookup]
  | cons p rest ih =>
      obtain ⟨a, b⟩ := p
      by_cases hk : a = k
      · subst hk
        by_cases hkey : a = key
        · subst hkey; simp [alupdate, alookup]
        · simp [alupdate, alookup, hkey, ih]
      · by_cases hkey : a = key
        · subst hkey
          simp [alupdate, alookup, hk, Ne.symm hk]
        · simp [alupdate, alookup, hk, hkey, ih]

/-! ### Freshness bookkeeping -/

/-- Handles that executing an instruction inserts into the executor table. -/
def insIds : ParseOperation → List Nat
  | .getTemplateContents _ contents => [contents]
  | .createElement node _ _ _ => [node]
  | .createComment _ node => [node]
  | .createPI node _ _ => [node]
  | _ => []

/-- Handles inserted by a list of instructions, in order. -/
def opsInsIds (ops : List ParseOperation) : List Nat := (ops.map insIds).flatten

theorem opsInsIds_nil : opsInsIds [] = [] := rfl

theorem opsInsIds_append (l₁ l₂ : List ParseOperation) :
    opsInsIds (l₁ ++ l₂) = opsInsIds l₁ ++ opsInsIds l₂ := by
  simp [opsInsIds]

/-- The inserted handles of a run of instructions are strictly increasing
and confined to the half-open minting window. -/
def IncrIn (l : List Nat) (lo hi : Nat) : Prop :=
  lo ≤ hi ∧ l.Pairwise (· < ·) ∧ ∀ x ∈ l, lo ≤ x ∧ x < hi

theorem IncrIn.nil {lo hi : Nat} (h : lo ≤ hi) : IncrIn [] lo hi :=
  ⟨h, List.Pairwise.nil, by simp⟩

theorem IncrIn.singleton {lo : Nat} : IncrIn [lo] lo (lo + 1) :=
  ⟨Nat.le_succ lo, List.pairwise_singleton _ _, by simp⟩

theorem IncrIn.append {l₁ l₂ : List Nat} {lo mid hi : Nat}
    (h₁ : IncrIn l₁ lo mid) (h₂ : IncrIn l₂ mid hi) : IncrIn (l₁ ++ l₂) lo hi := by
  obtain ⟨hlm, hp₁, hb₁⟩ := h₁
  obtain ⟨hmh, hp₂, hb₂⟩ := h₂
  refine ⟨Nat.le_trans hlm hmh, ?_, ?_⟩
  · rw [List.pairwise_append]
    exact ⟨hp₁, hp₂, fun a ha b hb =>
      Nat.lt_of_lt_of_le (hb₁ a ha).2 (hb₂ b hb).1⟩
  · intro x hx
    rcases List.mem_append.mp hx with hx | hx
    · exact ⟨(hb₁ x hx).1, Nat.lt_of_lt_of_le (hb₁ x hx).2 hmh⟩
    · exact ⟨Nat.le_trans hlm (hb₂ x hx).1, (hb₂ x hx).2⟩

theorem IncrIn.mono_hi {l : List Nat} {lo hi hi' : Nat} (h : IncrIn l lo hi)
    (hh : hi ≤ hi') : IncrIn l lo hi' :=
  ⟨Nat.le_trans h.1 hh, h.2.1, fun x hx =>
    ⟨(h.2.2 x hx).1, Nat.lt_of_lt_of_le (h.2.2 x hx).2 hh⟩⟩

/-- The live-tree facts preserved by every instruction: live node 0 is the
document and fresh live ids stay positive. -/
def domOk (d : DomState) : Prop :=
  d.kindAt 0 = some NodeKind.document ∧ 1 ≤ d.nextLive

/-- Executor well-formedness below a minting bound: handle keys are
duplicate-free and below the bound, and handle 0 denotes the document. -/
def execInv (e : ParseOperationExecutor) (n : Nat) : Prop :=
  (akeys e.nodes).Nodup ∧ (∀ k ∈ akeys e.nodes, k < n) ∧
  alookup e.nodes 0 = some 0 ∧ domOk e.dom

theorem domOk_addNode {d : DomState} (n : LiveNode) (h : domOk d) :
    domOk (d.addNode n).1 := by
  obtain ⟨hk, hn⟩ := h
  constructor
  · have hne : ¬d.nextLive = 0 := by omega
    simpa [DomState.addNode, DomState.kindAt, alookup, hne] using hk
  · show 1 ≤ d.nextLive + 1
    omega

theorem domOk_setParent {d : DomState} {c p : Nat} (h : domOk d) :
    domOk (d.setParent c p) := h

theorem domOk_alupdate {d : DomState} {live : Nat} {f : LiveNode → LiveNode}
    (hf : ∀ n, (f n).kind = n.kind) (h : domOk d) :
    domOk { d with nodes := alupdate d.nodes live f } := by
  obtain ⟨hk, hn⟩ := h
  refine ⟨?_, hn⟩
  have hk' : (alookup d.nodes 0).map LiveNode.kind = some NodeKind.document := hk
  show (alookup (alupdate d.nodes live f) 0).map LiveNode.kind = some NodeKind.document
  rw [alookup_alupdate]
  by_cases hl : live = 0
  · rw [if_pos hl]
    cases hc : alookup d.nodes 0 with
    | none => rw [hc] at hk'; simp at hk'
    | some v =>
        rw [hc] at hk'
        simp at hk'
        simp [hf, hk']
  · rw [if_neg hl]; exact hk'

theorem nextLive_addNode (d : DomState) (n : LiveNode) :
    (d.addNode n).1.nextLive = d.nextLive + 1 := rfl

/-- What one successful instruction does to the bookkeeping of the
executor: the ghost history grows by the instruction, the handle table is
extended at the front by exactly the inserted handles, and the live tree
keeps the document at live id 0. -/
theorem processOperationBody_spec {e e₀ : ParseOperationExecutor} {docLive : Nat}
    {op : ParseOperation} (h : e.processOperationBody docLive op = some e₀) :
    e₀.applied = e.applied ∧
    (∃ newpairs, e₀.nodes = newpairs ++ e.nodes ∧ akeys newpairs = insIds op) ∧
    (domOk e.dom → domOk e₀.dom) ∧ e.dom.nextLive ≤ e₀.dom.nextLive := by
  cases op with
  | getTemplateContents target contents =>
      unfold ParseOperationExecutor.processOperationBody at h
      simp only [Option.bind_eq_bind, Option.bind_eq_some] at h
      obtain ⟨tLive, htl, h⟩ := h
      obtain ⟨tNode, htn, h⟩ := h
      split at h
      case isFalse => exact absurd h (by simp)
      case isTrue =>
      split at h
      case h_1 cLive hc =>
          simp only [Option.some_inj] at h
          subst h
          exact ⟨rfl, ⟨[(contents, cLive)], rfl, rfl⟩, fun hd => hd, Nat.le_refl _⟩
      case h_2 hc =>
          simp only [Option.some_inj] at h
          subst h
          refine ⟨rfl, ⟨[(contents, e.dom.nextLive)], rfl, rfl⟩, fun hd => ?_, ?_⟩
          · exact domOk_addNode _ hd
          · simp [ParseOperationExecutor.insert_node, DomState.addNode]
  | createElement node name attrs current_line =>
      unfold ParseOperationExecutor.processOperationBody at h
      simp only [Option.some_inj] at h
      subst h
      exact ⟨rfl, ⟨[(node, e.dom.nextLive)], rfl, rfl⟩,
        fun hd => domOk_addNode _ hd, Nat.le_succ _⟩
  | createComment text node =>
      unfold ParseOperationExecutor.processOperationBody at h
      simp only [Option.some_inj] at h
      subst h
      exact ⟨rfl, ⟨[(node, e.dom.nextLive)], rfl, rfl⟩,
        fun hd => domOk_addNode _ hd, Nat.le_succ _⟩
  | createPI node target data =>
      unfold ParseOperationExecutor.processOperationBody at h
      simp only [Option.some_inj] at h
      subst h
      exact ⟨rfl, ⟨[(node, e.dom.nextLive)], rfl, rfl⟩,
        fun hd => domOk_addNode _ hd, Nat.le_succ _⟩
  | appendBeforeSibling sibling node =>
      unfold ParseOperationExecutor.processOperationBody at h
      unfold ParseOperationExecutor.append_before_sibling at h
      simp only [Option.bind_eq_bind, Option.bind_eq_some] at h
      obtain ⟨sLive, hsl, h⟩ := h
      obtain ⟨pLive, hpl, h⟩ := h
      cases node with
      | node n =>
          simp only [Option.bind_eq_bind, Option.bind_eq_some] at h
          obtain ⟨cLive, hcl, h⟩ := h
          simp only [Option.some_inj] at h
          subst h
          exact ⟨rfl, ⟨[], rfl, rfl⟩, fun hd => domOk_setParent hd, Nat.le_refl _⟩
      | text s =>
          simp only [Option.some_inj] at h
          subst h
          refine ⟨rfl, ⟨[], rfl, rfl⟩, fun hd => domOk_setParent (domOk_addNode _ hd), ?_⟩
          simp [DomState.setParent, DomState.addNode]
  | append parent node =>
      unfold ParseOperationExecutor.processOperationBody at h
      unfold ParseOperationExecutor.appendImpl at h
      simp only [Option.bind_eq_bind, Option.bind_eq_some] at h
      obtain ⟨pLive, hpl, h⟩ := h
      cases node with
      | node n =>
          simp only [Option.bind_eq_bind, Option.bind_eq_some] at h
          obtain ⟨cLive, hcl, h⟩ := h
          simp only [Option.some_inj] at h
          subst h
          exact ⟨rfl, ⟨[], rfl, rfl⟩, fun hd => domOk_setParent hd, Nat.le_refl _⟩
      | text s =>
          simp only [Option.some_inj] at h
          subst h
          refine ⟨rfl, ⟨[], rfl, rfl⟩, fun hd => domOk_setParent (domOk_addNode _ hd), ?_⟩
          simp [DomState.setParent, DomState.addNode]
  | appendBasedOnParentNode element prev_element node =>
      unfold ParseOperationExecutor.processOperationBody at h
      simp only [Option.bind_eq_bind, Option.bind_eq_some] at h
      obtain ⟨hp, hhp, h⟩ := h
      split at h
      all_goals {
        first
        | ( unfold ParseOperationExecutor.append_before_sibling at h
            simp only [Option.bind_eq_bind, Option.bind_eq_some] at h
            obtain ⟨sLive, hsl, h⟩ := h
            obtain ⟨pLive, hpl, h⟩ := h
            cases node with
            | node n =>
                simp only [Option.bind_eq_bind, Option.bind_eq_some] at h
                obtain ⟨cLive, hcl, h⟩ := h
                simp only [Option.some_inj] at h
                subst h
                exact ⟨rfl, ⟨[], rfl, rfl⟩, fun hd => domOk_setParent hd, Nat.le_refl _⟩
            | text s =>
                simp only [Option.some_inj] at h
                subst h
                refine ⟨rfl, ⟨[], rfl, rfl⟩,
                  fun hd => domOk_setParent (domOk_addNode _ hd), ?_⟩
                simp [DomState.setParent, DomState.addNode] )
        | ( unfold ParseOperationExecutor.appendImpl at h
            simp only [Option.bind_eq_bind, Option.bind_eq_some] at h
            obtain ⟨pLive, hpl, h⟩ := h
            cases node with
            | node n =>
                simp only [Option.bind_eq_bind, Option.bind_eq_some] at h
                obtain ⟨cLive, hcl, h⟩ := h
                simp only [Option.some_inj] at h
                subst h
                exact ⟨rfl, ⟨[], rfl, rfl⟩, fun hd => domOk_setParent hd, Nat.le_refl _⟩
            | text s =>
                simp only [Option.some_inj] at h
                subst h
                refine ⟨rfl, ⟨[], rfl, rfl⟩,
                  fun hd => domOk_setParent (domOk_addNode _ hd), ?_⟩
                simp [DomState.setParent, DomState.addNode] )
      }
  | appendDoctypeToDocument name public_id system_id =>
      unfold ParseOperationExecutor.processOperationBody at h
      simp only [Option.some_inj] at h
      subst h
      refine ⟨rfl, ⟨[], rfl, rfl⟩, fun hd => domOk_setParent (domOk_addNode _ hd), ?_⟩
      simp [DomState.setParent, DomState.addNode]
  | addAttrsIfMissing target attrs =>
      unfold ParseOperationExecutor.processOperationBody at h
      simp only [Option.bind_eq_bind, Option.bind_eq_some] at h
      obtain ⟨tLive, htl, h⟩ := h
      obtain ⟨tNode, htn, h⟩ := h
      split at h
      case isFalse => exact absurd h (by simp)
      case isTrue =>
      simp only [Option.some_inj] at h
      subst h
      exact ⟨rfl, ⟨[], rfl, rfl⟩, fun hd => domOk_alupdate (fun n => rfl) hd, Nat.le_refl _⟩
  | removeFromParent target =>
      unfold ParseOperationExecutor.processOperationBody at h
      simp only [Option.bind_eq_bind, Option.bind_eq_some] at h
      obtain ⟨tLive, htl, h⟩ := h
      simp only [Option.some_inj] at h
      subst h
      exact ⟨rfl, ⟨[], rfl, rfl⟩, fun hd => hd, Nat.le_refl _⟩
  | markScriptAlreadyStarted node =>
      unfold ParseOperationExecutor.processOperationBody at h
      simp only [Option.bind_eq_bind, Option.bind_eq_some] at h
      obtain ⟨tLive, htl, h⟩ := h
      obtain ⟨tNode, htn, h⟩ := h
      split at h
      case isFalse => exact absurd h (by simp)
      case isTrue =>
      simp only [Option.some_inj] at h
      subst h
      exact ⟨rfl, ⟨[], rfl, rfl⟩, fun hd => domOk_alupdate (fun n => rfl) hd, Nat.le_refl _⟩
  | reparentChildren parent new_parent =>
      unfold ParseOperationExecutor.processOperationBody at h
      simp only [Option.bind_eq_bind, Option.bind_eq_some] at h
      obtain ⟨pLive, hpl, h⟩ := h
      obtain ⟨nLive, hnl, h⟩ := h
      simp only [Option.some_inj] at h
      subst h
      exact ⟨rfl, ⟨[], rfl, rfl⟩, fun hd => hd, Nat.le_refl _⟩
  | associateWithForm target form element prev_element =>
      unfold ParseOperationExecutor.processOperationBody at h
      have htail : ∀ same : Bool,
          (if same = false then some e
            else
              (e.get_node form).bind fun fLive =>
                (alookup e.dom.nodes fLive).bind fun fNode =>
                  if fNode.kind = NodeKind.element ∧ fNode.name = "form" then
                    (e.get_node target).bind fun tLive =>
                      (alookup e.dom.nodes tLive).bind fun tNode =>
                        if tNode.kind = NodeKind.element ∧ isFormControlName tNode.name = true then
                          some { e with dom :=
                            { e.dom with formOwner := (tLive, fLive) :: aerase e.dom.formOwner tLive } }
                        else if liveNodeName tNode = "KEYGEN" then some e else none
                  else none) = some e₀ →
          e₀.applied = e.applied ∧
          (∃ newpairs, e₀.nodes = newpairs ++ e.nodes ∧
            akeys newpairs = insIds (.associateWithForm target form element prev_element)) ∧
          (domOk e.dom → domOk e₀.dom) ∧ e.dom.nextLive ≤ e₀.dom.nextLive := by
        intro same h
        split at h
        case isTrue =>
            simp only [Option.some_inj] at h
            subst h
            exact ⟨rfl, ⟨[], rfl, rfl⟩, fun hd => hd, Nat.le_refl _⟩
        case isFalse =>
            simp only [Option.bind_eq_bind, Option.bind_eq_some] at h
            obtain ⟨fLive, hfl, h⟩ := h
            obtain ⟨fNode, hfn, h⟩ := h
            split at h
            case isFalse => exact absurd h (by simp)
            case isTrue =>
            simp only [Option.bind_eq_bind, Option.bind_eq_some] at h
            obtain ⟨tLive, htl, h⟩ := h
            obtain ⟨tNode, htn2, h⟩ := h
            split at h
            case isTrue =>
                simp only [Option.some_inj] at h
                subst h
                exact ⟨rfl, ⟨[], rfl, rfl⟩, fun hd => hd, Nat.le_refl _⟩
            case isFalse =>
                split at h
                case isTrue =>
                    simp only [Option.some_inj] at h
                    subst h
                    exact ⟨rfl, ⟨[], rfl, rfl⟩, fun hd => hd, Nat.le_refl _⟩
                case isFalse => exact absurd h (by simp)
      cases prev_element with
      | none =>
          simp only [Option.bind_eq_bind, Option.bind_eq_some, Option.some_bind] at h
          obtain ⟨same, hsame, h⟩ := h
          exact htail same h
      | some prev =>
          simp only [Option.bind_eq_bind, Option.bind_eq_some, Option.some_bind] at h
          obtain ⟨hp, hhp, h⟩ := h
          obtain ⟨same, hsame, h⟩ := h
          exact htail same h
  | pop node =>
      unfold ParseOperationExecutor.processOperationBody at h
      simp only [Option.bind_eq_bind, Option.bind_eq_some] at h
      obtain ⟨tLive, htl, h⟩ := h
      simp only [Option.some_inj] at h
      subst h
      exact ⟨rfl, ⟨[], rfl, rfl⟩, fun hd => hd, Nat.le_refl _⟩
  | setQuirksMode mode =>
      unfold ParseOperationExecutor.processOperationBody at h
      simp only [Option.some_inj] at h
      subst h
      exact ⟨rfl, ⟨[], rfl, rfl⟩, fun hd => hd, Nat.le_refl _⟩

/-- Lifting of `processOperationBody_spec` through the document-node
guard and the ghost history. -/
theorem process_operation_spec {e e₁ : ParseOperationExecutor} {op : ParseOperation}
    (h : e.process_operation op = some e₁) :
    e₁.applied = e.applied ++ [op] ∧
    (∃ newpairs, e₁.nodes = newpairs ++ e.nodes ∧ akeys newpairs = insIds op) ∧
    (domOk e.dom → domOk e₁.dom) ∧ e.dom.nextLive ≤ e₁.dom.nextLive := by
  unfold ParseOperationExecutor.process_operation at h
  rw [Option.map_eq_some'] at h
  obtain ⟨e₀, hcore, he₁⟩ := h
  unfold ParseOperationExecutor.processOperationCore at hcore
  simp only [Option.bind_eq_bind, Option.bind_eq_some] at hcore
  obtain ⟨docLive, hdl, hcore⟩ := hcore
  obtain ⟨docNode, hdn, hcore⟩ := hcore
  split at hcore
  case isFalse => exact absurd hcore (by simp)
  case isTrue =>
  obtain ⟨ha, hn, hd, hnl⟩ := processOperationBody_spec hcore
  subst he₁
  exact ⟨rfl, hn, hd, hnl⟩

theorem insIds_reverse (op : ParseOperation) : (insIds op).reverse = insIds op := by
  cases op <;> rfl

theorem applyOps_append (e : ParseOperationExecutor) (l₁ l₂ : List ParseOperation) :
    e.applyOps (l₁ ++ l₂) = (e.applyOps l₁).bind (fun e₁ => e₁.applyOps l₂) := by
  induction l₁ generalizing e with
  | nil => simp [ParseOperationExecutor.applyOps]
  | cons op rest ih =>
      show ((e.process_operation op).bind fun e' => e'.applyOps (rest ++ l₂)) = _
      cases h : e.process_operation op with
      | none => simp [ParseOperationExecutor.applyOps, h]
      | some e' => simp [ParseOperationExecutor.applyOps, h, ih]

/-- Bookkeeping of a successful replay of a list of instructions. -/
theorem applyOps_spec {e e' : ParseOperationExecutor} {ops : List ParseOperation}
    (h : e.applyOps ops = some e') :
    e'.applied = e.applied ++ ops ∧
    (∃ newpairs, e'.nodes = newpairs ++ e.nodes ∧
      akeys newpairs = (opsInsIds ops).reverse) ∧
    (domOk e.dom → domOk e'.dom) ∧ e.dom.nextLive ≤ e'.dom.nextLive := by
  induction ops generalizing e with
  | nil =>
      simp only [ParseOperationExecutor.applyOps, Option.some_inj] at h
      subst h
      exact ⟨by simp, ⟨[], rfl, rfl⟩, fun hd => hd, Nat.le_refl _⟩
  | cons op rest ih =>
      have h' : (e.process_operation op).bind (fun e₁ => e₁.applyOps rest) = some e' := h
      rw [Option.bind_eq_some] at h'
      obtain ⟨e₁, hop, hrest⟩ := h'
      obtain ⟨ha₁, ⟨np₁, hn₁, hk₁⟩, hd₁, hl₁⟩ := process_operation_spec hop
      obtain ⟨ha₂, ⟨np₂, hn₂, hk₂⟩, hd₂, hl₂⟩ := ih hrest
      refine ⟨by simp [ha₂, ha₁], ⟨np₂ ++ np₁, ?_, ?_⟩,
        fun hd => hd₂ (hd₁ hd), Nat.le_trans hl₁ hl₂⟩
      · rw [hn₂, hn₁, List.append_assoc]
      · rw [akeys_append, hk₂, hk₁]
        show _ = (opsInsIds ([op] ++ rest)).reverse
        rw [opsInsIds_append, List.reverse_append]
        have : opsInsIds [op] = insIds op := by simp [opsInsIds]
        rw [this, insIds_reverse]

/-- Replaying instructions whose inserted handles are fresh and increasing
preserves executor well-formedness, moving the bound up. -/
theorem execInv_applyOps {e e' : ParseOperationExecutor} {ops : List ParseOperation}
    {lo hi : Nat} (hinv : execInv e lo) (hids : IncrIn (opsInsIds ops) lo hi)
    (h : e.applyOps ops = some e') : execInv e' hi := by
  obtain ⟨hnd, hb, h0, hdom⟩ := hinv
  obtain ⟨_, ⟨newpairs, hn, hk⟩, hd, _⟩ := applyOps_spec h
  have h0mem : (0 : Nat) ∈ akeys e.nodes := alookup_mem_akeys h0
  have h0lo : 0 < lo := hb 0 h0mem
  have hidlo : ∀ x ∈ akeys newpairs, lo ≤ x ∧ x < hi := by
    intro x hx
    rw [hk, List.mem_reverse] at hx
    exact hids.2.2 x hx
  refine ⟨?_, ?_, ?_, hd hdom⟩
  · rw [hn, akeys_append, List.nodup_append]
    refine ⟨?_, hnd, ?_⟩
    · rw [hk]
      exact List.nodup_reverse.mpr
        (List.Pairwise.imp (fun hlt => Nat.ne_of_lt hlt) hids.2.1)
    · intro a ha hmem
      have h₁ := (hidlo a ha).1
      have h₂ := hb a hmem
      omega
  · intro k hkmem
    rw [hn, akeys_append, List.mem_append] at hkmem
    rcases hkmem with hkmem | hkmem
    · exact (hidlo k hkmem).2
    · exact Nat.lt_of_lt_of_le (hb k hkmem) hids.1
  · rw [hn]
    rw [alookup_append_left]
    · exact h0
    · intro hmem
      exact absurd (hidlo 0 hmem).1 (by omega)

/-! ### Sink lemmas -/

/-- Sink well-formedness: handles minted so far are positive, registered
once each and below the next handle. -/
def sinkInv (s : Sink) : Prop :=
  1 ≤ s.next_parse_node_id ∧ (akeys s.parse_node_data).Nodup ∧
  ∀ k ∈ akeys s.parse_node_data, k < s.next_parse_node_id

/-- Mode-dependent effect of routing a run of instructions: streaming
sends them as individual messages in order, buffering enqueues them in
order, local replay applies them in order to the held executor.  The mode
itself never changes (transitions are driven only by protocol messages). -/
def ModeStep {σ : Type} : SinkState → SinkState →
    List (ParserThreadToMainThreadMessage σ) → List ParseOperation → Prop
  | .sendingParseOps, st', msgs, ops =>
      st' = .sendingParseOps ∧
      msgs = ops.map ParserThreadToMainThreadMessage.processOperation
  | .bufferingParseOperations q, st', msgs, ops =>
      st' = .bufferingParseOperations (q ++ ops) ∧ msgs = []
  | .parsingDocWriteContents ex, st', msgs, ops =>
      msgs = [] ∧ ∃ ex', ex.applyOps ops = some ex' ∧
        st' = .parsingDocWriteContents ex'

/-- Everything a successful run of builder callbacks does to the Sink:
the produced ghost grows by the translated instructions, whose inserted
handles are exactly the handles minted meanwhile, and routing follows the
mode. -/
def SinkStep {σ : Type} (s s' : Sink)
    (msgs : List (ParserThreadToMainThreadMessage σ)) (ops : List ParseOperation) :
    Prop :=
  s'.produced = s.produced ++ ops ∧
  IncrIn (opsInsIds ops) s.next_parse_node_id s'.next_parse_node_id ∧
  (sinkInv s → sinkInv s') ∧
  ModeStep (σ := σ) s.state s'.state msgs ops

theorem SinkStep.refl {σ : Type} (s : Sink) : SinkStep (σ := σ) s s [] [] := by
  refine ⟨by simp, IncrIn.nil (Nat.le_refl _), fun h => h, ?_⟩
  cases hst : s.state with
  | sendingParseOps => exact ⟨rfl, rfl⟩
  | bufferingParseOperations q => exact ⟨by simp, rfl⟩
  | parsingDocWriteContents ex => exact ⟨rfl, ex, rfl, rfl⟩

theorem SinkStep.trans {σ : Type} {s s₁ s₂ : Sink}
    {m₁ m₂ : List (ParserThreadToMainThreadMessage σ)}
    {ops₁ ops₂ : List ParseOperation}
    (h₁ : SinkStep (σ := σ) s s₁ m₁ ops₁) (h₂ : SinkStep (σ := σ) s₁ s₂ m₂ ops₂) :
    SinkStep (σ := σ) s s₂ (m₁ ++ m₂) (ops₁ ++ ops₂) := by
  obtain ⟨hp₁, hi₁, hv₁, hm₁⟩ := h₁
  obtain ⟨hp₂, hi₂, hv₂, hm₂⟩ := h₂
  refine ⟨by rw [hp₂, hp₁, List.append_assoc], ?_, fun h => hv₂ (hv₁ h), ?_⟩
  · rw [opsInsIds_append]
    exact IncrIn.append hi₁ hi₂
  · cases hst : s.state with
    | sendingParseOps =>
        rw [hst] at hm₁
        obtain ⟨hs₁, hmsg₁⟩ := hm₁
        rw [hs₁] at hm₂
        obtain ⟨hs₂, hmsg₂⟩ := hm₂
        exact ⟨hs₂, by rw [hmsg₁, hmsg₂, List.map_append]⟩
    | bufferingParseOperations q =>
        rw [hst] at hm₁
        obtain ⟨hs₁, hmsg₁⟩ := hm₁
        rw [hs₁] at hm₂
        obtain ⟨hs₂, hmsg₂⟩ := hm₂
        exact ⟨by rw [hs₂, List.append_assoc], by rw [hmsg₁, hmsg₂]; rfl⟩
    | parsingDocWriteContents ex =>
        rw [hst] at hm₁
        obtain ⟨hmsg₁, ex₁, hap₁, hs₁⟩ := hm₁
        rw [hs₁] at hm₂
        obtain ⟨hmsg₂, ex₂, hap₂, hs₂⟩ := hm₂
        refine ⟨by rw [hmsg₁, hmsg₂]; rfl, ex₂, ?_, hs₂⟩
        rw [applyOps_append, hap₁]
        exact hap₂

/-- Effect of routing one instruction (`Sink::process_operation`): no
minting, production recorded, mode-dependent routing. -/
theorem sink_process_operation_spec {σ : Type} {s s' : Sink} {op : ParseOperation}
    {msgs : List (ParserThreadToMainThreadMessage σ)}
    (h : Sink.process_operation (σ := σ) s op = some (s', msgs)) :
    s'.next_parse_node_id = s.next_parse_node_id ∧
    s'.parse_node_data = s.parse_node_data ∧
    s'.current_line = s.current_line ∧
    s'.produced = s.produced ++ [op] ∧
    ModeStep (σ := σ) s.state s'.state msgs [op] := by
  unfold Sink.process_operation at h
  cases hst : s.state with
  | sendingParseOps =>
      rw [hst] at h
      simp only [Option.some_inj, Prod.mk.injEq] at h
      obtain ⟨hs, hm⟩ := h
      subst hs
      exact ⟨rfl, rfl, rfl, rfl, rfl, by rw [← hm]; rfl⟩
  | bufferingParseOperations q =>
      rw [hst] at h
      simp only [Option.some_inj, Prod.mk.injEq] at h
      obtain ⟨hs, hm⟩ := h
      subst hs
      exact ⟨rfl, rfl, rfl, rfl, rfl, by rw [← hm]⟩
  | parsingDocWriteContents ex =>
      rw [hst] at h
      simp only [Option.bind_eq_bind, Option.bind_eq_some, Option.some_inj,
        Prod.mk.injEq] at h
      obtain ⟨ex', hap, hs, hm⟩ := h
      subst hs
      exact ⟨rfl, rfl, rfl, rfl, by rw [← hm], ex',
        by simp [ParseOperationExecutor.applyOps, hap], rfl⟩

/-- A non-minting instruction routed through the Sink is one `SinkStep`. -/
theorem sinkStep_of_process {σ : Type} {s s' : Sink} {op : ParseOperation}
    {msgs : List (ParserThreadToMainThreadMessage σ)}
    (h : Sink.process_operation (σ := σ) s op = some (s', msgs))
    (hids : insIds op = []) : SinkStep (σ := σ) s s' msgs [op] := by
  obtain ⟨hn, hd, _, hp, hm⟩ := sink_process_operation_spec h
  refine ⟨hp, ?_, ?_, hm⟩
  · rw [hn]
    have : opsInsIds [op] = insIds op := by simp [opsInsIds]
    rw [this, hids]
    exact IncrIn.nil (Nat.le_refl _)
  · intro ⟨h1, h2, h3⟩
    exact ⟨by rw [hn]; exact h1, by rw [hd]; exact h2,
      by rw [hd, hn]; exact h3⟩

/-- A mint followed by routing the instruction that introduces the minted
handle is one `SinkStep` from the pre-mint Sink. -/
theorem sinkStep_mint_process {σ : Type} {s s₂ s₃ : Sink} {op : ParseOperation}
    {msgs : List (ParserThreadToMainThreadMessage σ)}
    (h : Sink.process_operation (σ := σ) s₂ op = some (s₃, msgs))
    (hnext : s₂.next_parse_node_id = s.next_parse_node_id + 1)
    (hkeys : akeys s₂.parse_node_data = s.next_parse_node_id :: akeys s.parse_node_data)
    (hstate : s₂.state = s.state)
    (hprod : s₂.produced = s.produced)
    (hids : insIds op = [s.next_parse_node_id]) :
    SinkStep (σ := σ) s s₃ msgs [op] := by
  obtain ⟨hn, hd, _, hp, hm⟩ := sink_process_operation_spec h
  refine ⟨by rw [hp, hprod], ?_, ?_, ?_⟩
  · have : opsInsIds [op] = insIds op := by simp [opsInsIds]
    rw [this, hids, hn, hnext]
    exact IncrIn.singleton
  · intro ⟨h1, h2, h3⟩
    have hkeys₃ : akeys s₃.parse_node_data =
        s.next_parse_node_id :: akeys s.parse_node_data := by rw [hd, hkeys]
    have hnext₃ : s₃.next_parse_node_id = s.next_parse_node_id + 1 := by
      rw [hn, hnext]
    refine ⟨?_, ?_, ?_⟩
    · show 1 ≤ s₃.next_parse_node_id
      rw [hnext₃]
      exact Nat.le_add_left 1 _
    · rw [hkeys₃]
      exact List.Nodup.cons (fun hmem => absurd (h3 _ hmem) (by omega)) h2
    · intro k hk
      rw [hkeys₃] at hk
      rw [hnext₃]
      rcases List.mem_cons.mp hk with hk | hk
      · omega
      · have := h3 k hk
        omega
  · rw [hstate] at hm
    exact hm

/-- Every successful builder callback is one `SinkStep`; this is the
routing half of the Emitter contract. -/
theorem runAction_sinkStep {σ : Type} {s s' : Sink} {a : BuilderAction}
    {msgs : List (ParserThreadToMainThreadMessage σ)}
    (h : Sink.runAction (σ := σ) s a = some (s', msgs)) :
    ∃ ops, SinkStep (σ := σ) s s' msgs ops := by
  cases a with
  | createElement name attrs =>
      unfold Sink.runAction Sink.create_element at h
      simp only [Sink.new_parse_node, Sink.insert_parse_node_data,
        Option.bind_eq_bind, Option.bind_eq_some, Option.some_inj] at h
      obtain ⟨⟨s₃, node₃, msgs₃⟩, hproc, h⟩ := h
      obtain ⟨⟨s₄, msgs₄⟩, hinner, heq⟩ := hproc
      simp only [Prod.mk.injEq] at heq
      obtain ⟨hs₄, hn₃, hm₄⟩ := heq
      subst hs₄ hm₄
      simp only [Option.some_inj, Prod.mk.injEq] at h
      obtain ⟨hs', hmsgs⟩ := h
      subst hs' hmsgs
      exact ⟨_, sinkStep_mint_process hinner rfl (by rw [akeys_alupdate]; rfl) rfl rfl rfl⟩
  | createComment text =>
      unfold Sink.runAction Sink.create_comment at h
      simp only [Sink.new_parse_node, Sink.insert_parse_node_data,
        Option.bind_eq_bind, Option.bind_eq_some, Option.some_inj] at h
      obtain ⟨⟨s₃, node₃, msgs₃⟩, hproc, h⟩ := h
      obtain ⟨⟨s₄, msgs₄⟩, hinner, heq⟩ := hproc
      simp only [Prod.mk.injEq] at heq
      obtain ⟨hs₄, hn₃, hm₄⟩ := heq
      subst hs₄ hm₄
      simp only [Option.some_inj, Prod.mk.injEq] at h
      obtain ⟨hs', hmsgs⟩ := h
      subst hs' hmsgs
      exact ⟨_, sinkStep_mint_process hinner rfl rfl rfl rfl rfl⟩
  | createPI target data =>
      unfold Sink.runAction Sink.create_pi at h
      simp only [Sink.new_parse_node, Sink.insert_parse_node_data,
        Option.bind_eq_bind, Option.bind_eq_some, Option.some_inj] at h
      obtain ⟨⟨s₃, node₃, msgs₃⟩, hproc, h⟩ := h
      obtain ⟨⟨s₄, msgs₄⟩, hinner, heq⟩ := hproc
      simp only [Prod.mk.injEq] at heq
      obtain ⟨hs₄, hn₃, hm₄⟩ := heq
      subst hs₄ hm₄
      simp only [Option.some_inj, Prod.mk.injEq] at h
      obtain ⟨hs', hmsgs⟩ := h
      subst hs' hmsgs
      exact ⟨_, sinkStep_mint_process hinner rfl rfl rfl rfl rfl⟩
  | getTemplateContents target =>
      unfold Sink.runAction Sink.get_template_contents at h
      simp only [Option.bind_eq_bind, Option.bind_eq_some, Option.some_inj] at h
      obtain ⟨⟨s₃, node₃, msgs₃⟩, hproc, h⟩ := h
      obtain ⟨data, hdata, hproc⟩ := hproc
      simp only [Option.some_inj, Prod.mk.injEq] at h
      obtain ⟨hs', hmsgs⟩ := h
      subst hs' hmsgs
      cases hc : data.contents with
      | some contents =>
          rw [hc] at hproc
          simp only [Option.some_inj, Prod.mk.injEq] at hproc
          obtain ⟨hs₃, hn₃, hm₃⟩ := hproc
          subst hs₃ hm₃
          exact ⟨[], SinkStep.refl s⟩
      | none =>
          rw [hc] at hproc
          simp only [Sink.new_parse_node, Sink.insert_parse_node_data,
            Option.bind_eq_bind, Option.bind_eq_some, Option.some_inj] at hproc
          obtain ⟨⟨s₄, msgs₄⟩, hinner, heq⟩ := hproc
          simp only [Prod.mk.injEq] at heq
          obtain ⟨hs₃, hn₃, hm₃⟩ := heq
          subst hs₃ hm₃
          exact ⟨_, sinkStep_mint_process hinner rfl (by rw [akeys_alupdate]; rfl) rfl rfl rfl⟩
  | associateWithForm target form element prev =>
      exact ⟨_, sinkStep_of_process h rfl⟩
  | appendBeforeSibling sibling child =>
      exact ⟨_, sinkStep_of_process h rfl⟩
  | appendBasedOnParentNode element prev_element child =>
      exact ⟨_, sinkStep_of_process h rfl⟩
  | append parent child =>
      exact ⟨_, sinkStep_of_process h rfl⟩
  | appendDoctypeToDocument name public_id system_id =>
      exact ⟨_, sinkStep_of_process h rfl⟩
  | addAttrsIfMissing target attrs =>
      exact ⟨_, sinkStep_of_process h rfl⟩
  | removeFromParent target =>
      exact ⟨_, sinkStep_of_process h rfl⟩
  | markScriptAlreadyStarted target =>
      exact ⟨_, sinkStep_of_process h rfl⟩
  | reparentChildren parent new_parent =>
      exact ⟨_, sinkStep_of_process h rfl⟩
  | setQuirksMode mode =>
      exact ⟨_, sinkStep_of_process h rfl⟩
  | pop target =>
      exact ⟨_, sinkStep_of_process h rfl⟩

/-- Every successful run of builder callbacks is one `SinkStep`. -/
theorem runActions_sinkStep {σ : Type} {s s' : Sink} {acts : List BuilderAction}
    {msgs : List (ParserThreadToMainThreadMessage σ)}
    (h : Sink.runActions (σ := σ) s acts = some (s', msgs)) :
    ∃ ops, SinkStep (σ := σ) s s' msgs ops := by
  induction acts generalizing s msgs with
  | nil =>
      simp only [Sink.runActions, Option.some_inj, Prod.mk.injEq] at h
      obtain ⟨hs, hm⟩ := h
      subst hs hm
      exact ⟨[], SinkStep.refl s⟩
  | cons a rest ih =>
      unfold Sink.runActions at h
      simp only [Option.bind_eq_bind, Option.bind_eq_some, Option.some_inj] at h
      obtain ⟨⟨s₁, m₁⟩, ha, h⟩ := h
      obtain ⟨⟨s₂, m₂⟩, hrest, h⟩ := h
      simp only [Option.some_inj, Prod.mk.injEq] at h
      obtain ⟨hs', hm'⟩ := h
      subst hs' hm'
      obtain ⟨ops₁, hstep₁⟩ := runAction_sinkStep ha
      obtain ⟨ops₂, hstep₂⟩ := ih hrest
      exact ⟨ops₁ ++ ops₂, SinkStep.trans hstep₁ hstep₂⟩

/-! ### Receive-loop equations -/

theorem feedLoop_processOps {σ : Type} (e : ParseOperationExecutor)
    (ops : List ParseOperation) (tail : List (ParserThreadToMainThreadMessage σ)) :
    feedLoop (σ := σ) e (ops.map ParserThreadToMainThreadMessage.processOperation ++ tail) =
      (e.applyOps ops).bind (fun e' => feedLoop (σ := σ) e' tail) := by
  induction ops generalizing e with
  | nil => simp [ParseOperationExecutor.applyOps]
  | cons op rest ih =>
      show ((e.process_operation op).bind fun e' =>
        feedLoop (σ := σ) e'
          (rest.map ParserThreadToMainThreadMessage.processOperation ++ tail)) = _
      cases hop : e.process_operation op with
      | none => simp [ParseOperationExecutor.applyOps, hop]
      | some e₁ => simp [ParseOperationExecutor.applyOps, hop, ih]

theorem feedLoop_done {σ : Type} (e : ParseOperationExecutor) (upd : List String)
    (rest : List (ParserThreadToMainThreadMessage σ)) :
    feedLoop (σ := σ) e (.tokenizerResultDone upd false :: rest) =
      some (e, .ok, upd, rest) := by
  simp [feedLoop]

theorem feedLoop_script {σ : Type} (e : ParseOperationExecutor) (sc : ParseNode)
    (upd : List String) (rest : List (ParserThreadToMainThreadMessage σ)) :
    feedLoop (σ := σ) e (.tokenizerResultScript sc upd false :: rest) =
      (resolveScript e sc).bind (fun live => some (e, .err live, upd, rest)) := by
  simp [feedLoop]

theorem endLoop_processOps {σ : Type} (e : ParseOperationExecutor)
    (ops : List ParseOperation) (tail : List (ParserThreadToMainThreadMessage σ)) :
    endLoop (σ := σ) e (ops.map ParserThreadToMainThreadMessage.processOperation ++ tail) =
      (e.applyOps ops).bind (fun e' => endLoop (σ := σ) e' tail) := by
  induction ops generalizing e with
  | nil => simp [ParseOperationExecutor.applyOps]
  | cons op rest ih =>
      show ((e.process_operation op).bind fun e' =>
        endLoop (σ := σ) e'
          (rest.map ParserThreadToMainThreadMessage.processOperation ++ tail)) = _
      cases hop : e.process_operation op with
      | none => simp [ParseOperationExecutor.applyOps, hop]
      | some e₁ => simp [ParseOperationExecutor.applyOps, hop, ih]

theorem endLoop_end {σ : Type} (e : ParseOperationExecutor)
    (rest : List (ParserThreadToMainThreadMessage σ)) :
    endLoop (σ := σ) e (.endMsg :: rest) = some (e, rest) := rfl

/-! ### Worker-step lemmas -/

/-- The terminal reply the worker sends for a feed outcome. -/
def feedTerminal (σ : Type) : TokenizerResult → List String → Bool →
    ParserThreadToMainThreadMessage σ
  | .done, leftover, spec => .tokenizerResultDone leftover spec
  | .script sc, leftover, spec => .tokenizerResultScript sc leftover spec

/-- A deferred terminal message of a speculative feed. -/
def IsSpecTerminal {σ : Type} : ParserThreadToMainThreadMessage σ → Prop
  | .tokenizerResultDone _ spec => spec = true
  | .tokenizerResultScript _ _ spec => spec = true
  | _ => False

theorem htmlTokenizer_feed_spec {σ : Type} {M : TokModel σ} {t : HtmlTokenizer σ}
    {input : List String} {fr : FeedRes σ}
    (h : HtmlTokenizer.feed M t input = some fr) :
    ∃ ops, SinkStep (σ := σ) t.sink fr.tok.sink fr.msgs ops ∧
      fr.tok.internal = (M.feedActions t.internal input).nextInternal ∧
      fr.result = (M.feedActions t.internal input).outcome ∧
      fr.leftover = (M.feedActions t.internal input).leftover := by
  unfold HtmlTokenizer.feed at h
  simp only [Option.bind_eq_bind, Option.bind_eq_some, Option.some_inj] at h
  obtain ⟨⟨sink', msgs'⟩, hrun, h⟩ := h
  subst h
  obtain ⟨ops, hstep⟩ := runActions_sinkStep hrun
  exact ⟨ops, hstep, rfl, rfl, rfl⟩

theorem workerStep_feed_false_spec {σ : Type} {M : TokModel σ} {w w' : WorkerState σ}
    {input : List String} {outs : List (ParserThreadToMainThreadMessage σ)}
    (h : workerStep M w (.feed input false) = some (w', outs)) :
    ∃ ops msgs,
      SinkStep (σ := σ) w.tok.sink w'.tok.sink msgs ops ∧
      w.done = false ∧ w'.done = false ∧
      w'.tok.internal = (M.feedActions w.tok.internal input).nextInternal ∧
      outs = msgs ++ [feedTerminal σ (M.feedActions w.tok.internal input).outcome
        (M.feedActions w.tok.internal input).leftover false] := by
  unfold workerStep at h
  split at h
  case isTrue => exact absurd h (by simp)
  case isFalse hdone =>
  simp only [if_neg, Bool.false_eq_true, ite_false, Option.map_eq_some'] at h
  obtain ⟨fr, hfeed, h⟩ := h
  simp only [Prod.mk.injEq] at h
  obtain ⟨hw', houts⟩ := h
  obtain ⟨ops, hstep, hint, hres, hleft⟩ := htmlTokenizer_feed_spec hfeed
  subst hw'
  refine ⟨ops, fr.msgs, hstep, by simpa using hdone, by simpa using hdone, hint, ?_⟩
  rw [← houts, hres, hleft]
  cases (M.feedActions w.tok.internal input).outcome <;> simp [feedTerminal]

theorem workerStep_feed_true_spec {σ : Type} {M : TokModel σ} {w w' : WorkerState σ}
    {input : List String} {outs : List (ParserThreadToMainThreadMessage σ)}
    (h : workerStep M w (.feed input true) = some (w', outs)) :
    ∃ ops,
      SinkStep (σ := σ) { w.tok.sink with state := .bufferingParseOperations [] }
        w'.tok.sink [] ops ∧
      w.done = false ∧ w'.done = false ∧
      w'.tok.internal = (M.feedActions w.tok.internal input).nextInternal ∧
      w'.tok.sink.state = .bufferingParseOperations ops ∧
      outs = [ParserThreadToMainThreadMessage.htmlTokenizerInternalState w.tok,
        feedTerminal σ (M.feedActions w.tok.internal input).outcome
          (M.feedActions w.tok.internal input).leftover true] := by
  unfold workerStep at h
  split at h
  case isTrue => exact absurd h (by simp)
  case isFalse hdone =>
  simp only [if_pos, ite_true, Option.map_eq_some'] at h
  obtain ⟨fr, hfeed, h⟩ := h
  simp only [Prod.mk.injEq] at h
  obtain ⟨hw', houts⟩ := h
  obtain ⟨ops, hstep, hint, hres, hleft⟩ := htmlTokenizer_feed_spec hfeed
  subst hw'
  have hint' : fr.tok.internal = (M.feedActions w.tok.internal input).nextInternal := hint
  have hres' : fr.result = (M.feedActions w.tok.internal input).outcome := hres
  have hleft' : fr.leftover = (M.feedActions w.tok.internal input).leftover := hleft
  have hmode := hstep.2.2.2
  have hstate : fr.tok.sink.state = .bufferingParseOperations ([] ++ ops) := hmode.1
  have hmsgs : fr.msgs = [] := hmode.2
  refine ⟨ops, by rw [← hmsgs]; exact hstep, by simpa using hdone, by simpa using hdone,
    hint', by simpa using hstate, ?_⟩
  rw [← houts, hres', hleft', hmsgs]
  cases (M.feedActions w.tok.internal input).outcome <;>
    simp [feedTerminal, HtmlTokenizer.get_sendable]

/-! ### Facade-step characterization lemmas -/

/-- The black-box step a feed of this system performs on the worker. -/
def feedStepOf {σ : Type} (M : TokModel σ) (sys : SystemState σ)
    (input : BufferQueue) : FeedStep σ :=
  M.feedActions sys.worker.tok.internal input.buffers

/-- With a pending speculative result, `feed` consumes and returns it,
touching neither the channels nor the executor (executing state). -/
theorem feed_pending_spec {σ : Type} (M : TokModel σ) (sys : SystemState σ)
    (input : BufferQueue) {r : Option Nat}
    (hstate : sys.main.state = TokenizerState.executingParseOps)
    (hpend : sys.main.pending_result = some r) :
    SystemState.feed M sys input = some
      ({ sys with main := { sys.main with pending_result := none } },
       (match r with | none => FeedResult.ok | some live => FeedResult.err live),
       input) := by
  unfold SystemState.feed
  rw [hstate]
  simp only [hpend]
  cases r <;> rfl

/-- A `feed` in the executing state with no pending result: one
round trip with the worker, every streamed instruction applied in arrival
order, ending at the terminal message. -/
theorem feed_executing_spec {σ : Type} {M : TokModel σ} {sys sys' : SystemState σ}
    {input input' : BufferQueue} {r : FeedResult}
    (hstate : sys.main.state = TokenizerState.executingParseOps)
    (hpend : sys.main.pending_result = none)
    (hchan : sys.chan = [])
    (hsink : sys.worker.tok.sink.state = SinkState.sendingParseOps)
    (h : SystemState.feed M sys input = some (sys', r, input')) :
    ∃ ops e',
      sys.main.executor.applyOps ops = some e' ∧
      sys'.main.executor = e' ∧
      sys'.main.executor.applied = sys.main.executor.applied ++ ops ∧
      sys'.worker.tok.sink.produced = sys.worker.tok.sink.produced ++ ops ∧
      sys'.main.state = TokenizerState.executingParseOps ∧
      sys'.main.pending_result = none ∧
      sys'.chan = [] ∧
      sys'.worker.done = false ∧
      sys'.worker.tok.sink.state = SinkState.sendingParseOps ∧
      sys'.worker.tok.internal = (feedStepOf M sys input).nextInternal ∧
      sys'.sentLog = sys.sentLog ++
        ops.map ParserThreadToMainThreadMessage.processOperation ++
        [feedTerminal σ (feedStepOf M sys input).outcome
          (feedStepOf M sys input).leftover false] ∧
      sys'.toWorkerLog = sys.toWorkerLog ++ [.feed input.buffers false] ∧
      input' = ⟨(feedStepOf M sys input).leftover, none⟩ ∧
      ((feedStepOf M sys input).outcome = TokenizerResult.done → r = FeedResult.ok) ∧
      (∀ sc, (feedStepOf M sys input).outcome = TokenizerResult.script sc →
        ∃ live, resolveScript e' sc = some live ∧ r = FeedResult.err live) ∧
      IncrIn (opsInsIds ops) sys.worker.tok.sink.next_parse_node_id
        sys'.worker.tok.sink.next_parse_node_id ∧
      (sinkInv sys.worker.tok.sink → sinkInv sys'.worker.tok.sink) := by
  unfold SystemState.feed at h
  rw [hstate] at h
  rw [hpend] at h
  simp only [Option.bind_eq_bind, Option.bind_eq_some] at h
  obtain ⟨sys₁, hsend, h⟩ := h
  unfold sendToWorker at hsend
  rw [Option.map_eq_some'] at hsend
  obtain ⟨⟨w', outs⟩, hws, hsys₁⟩ := hsend
  obtain ⟨ops, msgs, hstep, hdone, hdone', hint, houts⟩ := workerStep_feed_false_spec hws
  have hmode := hstep.2.2.2
  rw [hsink] at hmode
  obtain ⟨hstate', hmsgs⟩ := hmode
  subst hmsgs
  have hm₁ : sys₁.main = sys.main := by rw [← hsys₁]
  have hc₁ : sys₁.chan = sys.chan ++ outs := by rw [← hsys₁]
  have hw₁ : sys₁.worker = w' := by rw [← hsys₁]
  have hl₁ : sys₁.sentLog = sys.sentLog ++ outs := by rw [← hsys₁]
  have ht₁ : sys₁.toWorkerLog =
      sys.toWorkerLog ++ [MainThreadToParserThreadMessage.feed input.buffers false] := by
    rw [← hsys₁]
  rw [hm₁, hc₁, hchan, List.nil_append, houts] at h
  rw [feedLoop_processOps] at h
  simp only [Option.bind_eq_bind, Option.bind_eq_some] at h
  obtain ⟨⟨e', r₀, upd, rest⟩, ⟨e₁, happly, hterm⟩, h⟩ := h
  simp only [Option.some_inj, Prod.mk.injEq] at h
  obtain ⟨hsys', hr', hinput'⟩ := h
  have hcase : e' = e₁ ∧ rest = [] ∧
      upd = (M.feedActions sys.worker.tok.internal input.buffers).leftover ∧
      ((M.feedActions sys.worker.tok.internal input.buffers).outcome =
        TokenizerResult.done → r₀ = FeedResult.ok) ∧
      (∀ sc, (M.feedActions sys.worker.tok.internal input.buffers).outcome =
        TokenizerResult.script sc →
        ∃ live, resolveScript e₁ sc = some live ∧ r₀ = FeedResult.err live) := by
    cases hout : (M.feedActions sys.worker.tok.internal input.buffers).outcome with
    | done =>
        rw [hout] at hterm
        simp only [feedTerminal] at hterm
        rw [feedLoop_done] at hterm
        simp only [Option.some_inj, Prod.mk.injEq] at hterm
        obtain ⟨he, hr, hu, hrest⟩ := hterm
        exact ⟨he.symm, hrest.symm, hu.symm, fun _ => hr.symm,
          fun sc hsc => absurd hsc (by simp)⟩
    | script sc =>
        rw [hout] at hterm
        simp only [feedTerminal] at hterm
        rw [feedLoop_script] at hterm
        simp only [Option.bind_eq_bind, Option.bind_eq_some, Option.some_inj,
          Prod.mk.injEq] at hterm
        obtain ⟨live, hlive, he, hr, hu, hrest⟩ := hterm
        refine ⟨he.symm, hrest.symm, hu.symm, fun hc => absurd hc (by simp), ?_⟩
        intro sc' hsc
        injection hsc with hsc
        subst hsc
        exact ⟨live, hlive, hr.symm⟩
  obtain ⟨he', hrest, hupd, hdonecase, hscriptcase⟩ := hcase
  subst he' hrest
  refine ⟨ops, e', happly, ?_, ?_, ?_, ?_, ?_, ?_, ?_, ?_, ?_, ?_, ?_, ?_, ?_, ?_, ?_, ?_⟩
  · rw [← hsys']
  · rw [← hsys']
    exact (applyOps_spec happly).1
  · rw [← hsys']
    show sys₁.worker.tok.sink.produced = _
    rw [hw₁]
    exact hstep.1
  · rw [← hsys']
    exact hstate
  · rw [← hsys']
    exact hpend
  · rw [← hsys']
  · rw [← hsys']
    show sys₁.worker.done = false
    rw [hw₁]
    exact hdone'
  · rw [← hsys']
    show sys₁.worker.tok.sink.state = _
    rw [hw₁]
    exact hstate'
  · rw [← hsys']
    show sys₁.worker.tok.internal = _
    rw [hw₁]
    exact hint
  · rw [← hsys']
    show sys₁.sentLog = _
    rw [hl₁, houts]
    simp [feedStepOf]
  · rw [← hsys']
    exact ht₁
  · rw [← hinput', hupd]
    rfl
  · intro hdonec
    rw [← hr']
    exact hdonecase hdonec
  · intro sc hsc
    obtain ⟨live, hres, hrr⟩ := hscriptcase sc hsc
    exact ⟨live, hres, by rw [← hr']; exact hrr⟩
  · rw [← hsys']
    show IncrIn _ _ sys₁.worker.tok.sink.next_parse_node_id
    rw [hw₁]
    exact hstep.2.1
  · rw [← hsys']
    show sinkInv sys.worker.tok.sink → sinkInv sys₁.worker.tok.sink
    rw [hw₁]
    exact hstep.2.2.1

/-- A `feed` while speculating (the `document.write` path): the embedded
tokenizer is fed directly, the write flag latches to true, the pending
result is discarded, and nothing crosses either channel. -/
theorem feed_speculating_spec {σ : Type} {M : TokModel σ} {sys sys' : SystemState σ}
    {tok : HtmlTokenizer σ} {dwc waiting : Bool}
    {input input' : BufferQueue} {r : FeedResult}
    (hstate : sys.main.state = TokenizerState.speculativeParsing tok dwc waiting)
    (h : SystemState.feed M sys input = some (sys', r, input')) :
    ∃ fr, HtmlTokenizer.feed M tok input.buffers = some fr ∧
      sys'.main.state = TokenizerState.speculativeParsing fr.tok true waiting ∧
      sys'.main.pending_result = none ∧
      sys'.main.executor = sys.main.executor ∧
      sys'.worker = sys.worker ∧
      sys'.chan = sys.chan ∧
      sys'.sentLog = sys.sentLog ∧
      sys'.toWorkerLog = sys.toWorkerLog ∧
      input' = { input with buffers := fr.leftover } ∧
      fr.msgs = [] ∧
      fr.tok.internal = (M.feedActions tok.internal input.buffers).nextInternal ∧
      (fr.result = TokenizerResult.done → r = FeedResult.ok) := by
  unfold SystemState.feed at h
  rw [hstate] at h
  simp only [Option.bind_eq_bind, Option.bind_eq_some] at h
  obtain ⟨fr, hfeed, h⟩ := h
  split at h
  case isFalse => exact absurd h (by simp)
  case isTrue hempty =>
  have hmsgs : fr.msgs = [] := List.isEmpty_iff.mp hempty
  have hint : fr.tok.internal = (M.feedActions tok.internal input.buffers).nextInternal := by
    obtain ⟨_, _, hint, _, _⟩ := htmlTokenizer_feed_spec hfeed
    exact hint
  cases hres : fr.result with
  | done =>
      rw [hres] at h
      simp only [Option.some_bind, Option.some_inj, Prod.mk.injEq] at h
      obtain ⟨hsys', hr, hinput'⟩ := h
      exact ⟨fr, hfeed, by rw [← hsys'], by rw [← hsys'], by rw [← hsys'],
        by rw [← hsys'], by rw [← hsys'], by rw [← hsys'], by rw [← hsys'],
        by rw [← hinput'], hmsgs, hint, fun _ => hr.symm⟩
  | script sc =>
      rw [hres] at h
      cases hsinkstate : fr.tok.sink.state with
      | parsingDocWriteContents ex =>
          rw [hsinkstate] at h
          simp only [Option.bind_eq_bind, Option.bind_eq_some, Option.map_eq_some',
            Option.some_inj, Prod.mk.injEq] at h
          obtain ⟨res, ⟨live, hlive, hr⟩, hsys', hrr, hinput'⟩ := h
          exact ⟨fr, hfeed, by rw [← hsys'], by rw [← hsys'], by rw [← hsys'],
            by rw [← hsys'], by rw [← hsys'], by rw [← hsys'], by rw [← hsys'],
            by rw [← hinput'], hmsgs, hint, fun hc => absurd (hres ▸ hc) (by simp)⟩
      | sendingParseOps =>
          rw [hsinkstate] at h
          simp at h
      | bufferingParseOperations q =>
          rw [hsinkstate] at h
          simp at h

/-- Worker behaviour on `End`: run the remaining builder callbacks through
the Sink, send the acknowledgement last, terminate the dispatch loop. -/
theorem workerStep_end_spec {σ : Type} {M : TokModel σ} {w w' : WorkerState σ}
    {outs : List (ParserThreadToMainThreadMessage σ)}
    (h : workerStep M w .endMsg = some (w', outs)) :
    ∃ ops msgs,
      SinkStep (σ := σ) w.tok.sink w'.tok.sink msgs ops ∧
      w.done = false ∧ w'.done = true ∧
      w'.tok.internal = (M.endActions w.tok.internal).2 ∧
      outs = msgs ++ [ParserThreadToMainThreadMessage.endMsg] := by
  unfold workerStep at h
  split at h
  case isTrue => exact absurd h (by simp)
  case isFalse hdone =>
  rw [Option.map_eq_some'] at h
  obtain ⟨⟨sink', msgs'⟩, hrun, h⟩ := h
  simp only [Prod.mk.injEq] at h
  obtain ⟨hw', houts⟩ := h
  obtain ⟨ops, hstep⟩ := runActions_sinkStep hrun
  subst hw'
  exact ⟨ops, msgs', hstep, by simpa using hdone, rfl, rfl, houts.symm⟩

/-- `start_speculative_parsing`: the snapshot crosses first, the deferred
terminal stays in flight, the live executor moves into the embedded
tokenizer and the worker is left buffering exactly the operations of the
speculative feed. -/
theorem start_speculative_parsing_spec {σ : Type} {M : TokModel σ}
    {sys sys' : SystemState σ} {input input' : BufferQueue}
    (hchan : sys.chan = [])
    (h : SystemState.start_speculative_parsing M sys input = some (sys', input')) :
    ∃ ops,
      sys'.main.state = TokenizerState.speculativeParsing
        { sys.worker.tok with sink :=
          { sys.worker.tok.sink with
              state := .parsingDocWriteContents sys.main.executor } } false false ∧
      sys'.main.executor = ParseOperationExecutor.new false ⟨[], 0, [], [], [], .noQuirks⟩ ∧
      sys'.main.pending_result = sys.main.pending_result ∧
      sys'.worker.done = false ∧
      sys'.worker.tok.sink.state = SinkState.bufferingParseOperations ops ∧
      SinkStep (σ := σ) { sys.worker.tok.sink with state := .bufferingParseOperations [] }
        sys'.worker.tok.sink [] ops ∧
      sys'.worker.tok.internal = (feedStepOf M sys input).nextInternal ∧
      sys'.chan = [feedTerminal σ (feedStepOf M sys input).outcome
        (feedStepOf M sys input).leftover true] ∧
      sys'.sentLog = sys.sentLog ++
        [ParserThreadToMainThreadMessage.htmlTokenizerInternalState sys.worker.tok,
         feedTerminal σ (feedStepOf M sys input).outcome
           (feedStepOf M sys input).leftover true] ∧
      sys'.toWorkerLog = sys.toWorkerLog ++
        [MainThreadToParserThreadMessage.feed input.buffers true] ∧
      input' = { input with savedForSpeculation := some input.buffers } := by
  unfold SystemState.start_speculative_parsing at h
  simp only [Option.bind_eq_bind, Option.bind_eq_some] at h
  obtain ⟨sys₁, hsend, h⟩ := h
  unfold sendToWorker at hsend
  rw [Option.map_eq_some'] at hsend
  obtain ⟨⟨w', outs⟩, hws, hsys₁⟩ := hsend
  obtain ⟨ops, hstep, hdone, hdone', hint, hstate', houts⟩ :=
    workerStep_feed_true_spec hws
  have hc₁ : sys₁.chan = sys.chan ++ outs := by rw [← hsys₁]
  have hm₁ : sys₁.main = sys.main := by rw [← hsys₁]
  have hw₁ : sys₁.worker = w' := by rw [← hsys₁]
  have hl₁ : sys₁.sentLog = sys.sentLog ++ outs := by rw [← hsys₁]
  have ht₁ : sys₁.toWorkerLog = sys.toWorkerLog ++
      [MainThreadToParserThreadMessage.feed input.buffers true] := by
    rw [← hsys₁]
    rfl
  rw [hc₁, hchan, List.nil_append, houts] at h
  simp only [Option.some_inj, Prod.mk.injEq] at h
  obtain ⟨hs, hi⟩ := h
  refine ⟨ops, ?_, ?_, ?_, ?_, ?_, ?_, ?_, ?_, ?_, ?_, ?_⟩
  · rw [← hs, hm₁]
    rfl
  · rw [← hs]
  · rw [← hs, hm₁]
  · rw [← hs, hw₁]
    exact hdone'
  · rw [← hs, hw₁]
    exact hstate'
  · rw [← hs, hw₁]
    exact hstep
  · rw [← hs, hw₁]
    exact hint
  · rw [← hs]
    rfl
  · rw [← hs, hl₁, houts]
    rfl
  · rw [← hs, ht₁]
  · rw [← hi]
    rfl

/-- `end_speculative_parsing` with a pending parsing-blocking script only
records the waiting flag and returns. -/
theorem end_speculative_parsing_blocking_spec {σ : Type} (M : TokModel σ)
    (sys : SystemState σ) (input : BufferQueue) {tok : HtmlTokenizer σ} {dwc w : Bool}
    (hstate : sys.main.state = TokenizerState.speculativeParsing tok dwc w) :
    SystemState.end_speculative_parsing M sys input true =
      some ({ sys with main := { sys.main with
        state := TokenizerState.speculativeParsing tok dwc true } }, input) := by
  unfold SystemState.end_speculative_parsing
  rw [hstate]
  rfl

/-- The invalidated case of `end_speculative_parsing`: the embedded
tokenizer state (its Sink reset to streaming) is sent to the worker, which
adopts it wholesale, discarding its buffered queue; the deferred terminal
message is consumed and dropped; the facade repossesses the live executor
and returns to the executing state with no pending result. -/
theorem end_speculative_parsing_invalid_spec {σ : Type} {M : TokModel σ}
    {sys sys' : SystemState σ} {input input' : BufferQueue}
    {tok : HtmlTokenizer σ} {w : Bool} {realExec : ParseOperationExecutor}
    {t : ParserThreadToMainThreadMessage σ}
    {rest : List (ParserThreadToMainThreadMessage σ)}
    (hstate : sys.main.state = TokenizerState.speculativeParsing tok true w)
    (hchan : sys.chan = t :: rest)
    (hexec : tok.sink.state = SinkState.parsingDocWriteContents realExec)
    (h : SystemState.end_speculative_parsing M sys input false = some (sys', input')) :
    sys.main.pending_result = none ∧
    sys'.main.state = TokenizerState.executingParseOps ∧
    sys'.main.executor = realExec ∧
    sys'.main.pending_result = none ∧
    sys'.worker.done = false ∧
    sys'.worker.tok = { tok with sink := { tok.sink with state := .sendingParseOps } } ∧
    sys'.chan = rest ∧
    sys'.sentLog = sys.sentLog ∧
    sys'.toWorkerLog = sys.toWorkerLog ++
      [MainThreadToParserThreadMessage.restoreInternalState
        { tok with sink := { tok.sink with state := .sendingParseOps } }] ∧
    input.updateWithNewData none = some input' := by
  unfold SystemState.end_speculative_parsing at h
  rw [hstate, hchan] at h
  simp only [Bool.false_eq_true, if_false, ite_false, eq_self_iff_true, if_true,
    ite_true] at h
  rw [hexec] at h
  simp only [Option.bind_eq_bind, Option.bind_eq_some] at h
  obtain ⟨sys₂, hsend, h⟩ := h
  unfold sendToWorker at hsend
  rw [Option.map_eq_some'] at hsend
  obtain ⟨⟨w', outs⟩, hws, hsys₂⟩ := hsend
  unfold workerStep at hws
  split at hws
  case isTrue => exact absurd hws (by simp)
  case isFalse hdone =>
  simp only [Option.some_inj, Prod.mk.injEq] at hws
  obtain ⟨hwrec, houtseq⟩ := hws
  obtain ⟨updv, hin, h⟩ := h
  split at h
  case isFalse hp => exact absurd h (by simp)
  case isTrue hp =>
  simp only [Option.some_inj, Prod.mk.injEq] at h
  obtain ⟨hs, hi⟩ := h
  have hw' : w' = WorkerState.mk
      { tok with sink := { tok.sink with state := SinkState.sendingParseOps } }
      sys.worker.done := by
    rw [← hwrec]
    rfl
  have hdonef : sys.worker.done = false := by simpa using hdone
  have houts : outs = [] := houtseq.symm
  have hc₂ : sys₂.chan = rest ++ outs := by rw [← hsys₂]
  have hw₂ : sys₂.worker = w' := by rw [← hsys₂]
  have hl₂ : sys₂.sentLog = sys.sentLog ++ outs := by rw [← hsys₂]
  have ht₂ : sys₂.toWorkerLog = sys.toWorkerLog ++
      [MainThreadToParserThreadMessage.restoreInternalState
        (HtmlTokenizer.get_sendable
          { tok with sink := { tok.sink with state := .sendingParseOps } })] := by
    rw [← hsys₂]
  refine ⟨hp, by rw [← hs], by rw [← hs], by rw [← hs], ?_, ?_, ?_, ?_, ?_, ?_⟩
  · rw [← hs]
    show sys₂.worker.done = false
    rw [hw₂, hw']
    exact hdonef
  · rw [← hs]
    show sys₂.worker.tok = _
    rw [hw₂, hw']
  · rw [← hs]
    show sys₂.chan = rest
    rw [hc₂, houts, List.append_nil]
  · rw [← hs]
    show sys₂.sentLog = sys.sentLog
    rw [hl₂, houts, List.append_nil]
  · rw [← hs]
    show sys₂.toWorkerLog = _
    rw [ht₂]
    rfl
  · rw [hi] at hin
    exact hin

/-- The confirmed case of `end_speculative_parsing`: the deferred terminal
is received first; `FlushTreeOps` is answered by exactly one message
carrying the entire buffered queue, which is applied to the repossessed
executor front to back; the terminal becomes the pending result. -/
theorem end_speculative_parsing_confirmed_spec {σ : Type} {M : TokModel σ}
    {sys sys' : SystemState σ} {input input' : BufferQueue}
    {tok : HtmlTokenizer σ} {w : Bool} {realExec : ParseOperationExecutor}
    {t : ParserThreadToMainThreadMessage σ} {q : List ParseOperation}
    (hstate : sys.main.state = TokenizerState.speculativeParsing tok false w)
    (hchan : sys.chan = [t])
    (hq : sys.worker.tok.sink.state = SinkState.bufferingParseOperations q)
    (hexec : tok.sink.state = SinkState.parsingDocWriteContents realExec)
    (h : SystemState.end_speculative_parsing M sys input false = some (sys', input')) :
    ∃ e' upd result,
      realExec.applyOps q = some e' ∧
      sys'.main.executor = e' ∧
      sys'.main.executor.applied = realExec.applied ++ q ∧
      sys'.main.state = TokenizerState.executingParseOps ∧
      sys'.main.pending_result = some result ∧
      sys'.chan = [] ∧
      sys'.worker.done = false ∧
      sys'.worker.tok.sink = { sys.worker.tok.sink with state := .sendingParseOps } ∧
      sys'.worker.tok.internal = sys.worker.tok.internal ∧
      sys'.sentLog = sys.sentLog ++ [ParserThreadToMainThreadMessage.speculativeParseOps q] ∧
      sys'.toWorkerLog = sys.toWorkerLog ++ [MainThreadToParserThreadMessage.flushTreeOps] ∧
      input' = ⟨upd, none⟩ ∧
      ((t = ParserThreadToMainThreadMessage.tokenizerResultDone upd true ∧ result = none) ∨
        (∃ sc live, t = ParserThreadToMainThreadMessage.tokenizerResultScript sc upd true ∧
          resolveScript e' sc = some live ∧ result = some live)) := by
  unfold SystemState.end_speculative_parsing at h
  rw [hstate, hchan] at h
  simp only [Bool.false_eq_true, if_false, ite_false, eq_self_iff_true, if_true,
    ite_true] at h
  rw [hexec] at h
  simp only [Option.bind_eq_bind, Option.bind_eq_some] at h
  obtain ⟨sys₂, hsend, h⟩ := h
  unfold sendToWorker at hsend
  rw [Option.map_eq_some'] at hsend
  obtain ⟨⟨w', outs⟩, hws, hsys₂⟩ := hsend
  unfold workerStep at hws
  split at hws
  case isTrue => exact absurd hws (by simp)
  case isFalse hdone =>
  unfold Sink.flush_tree_ops at hws
  rw [hq] at hws
  simp only [Option.map_eq_some', Option.some_inj, Prod.mk.injEq] at hws
  obtain ⟨⟨sink', msgs'⟩, hsm, hw', houts⟩ := hws
  simp only [Prod.mk.injEq] at hsm
  obtain ⟨hsink', hmsgs'⟩ := hsm
  have hdonef : sys.worker.done = false := by simpa using hdone
  have hc₂ : sys₂.chan = [] ++ outs := by rw [← hsys₂]
  have hw₂ : sys₂.worker = w' := by rw [← hsys₂]
  have hl₂ : sys₂.sentLog = sys.sentLog ++ outs := by rw [← hsys₂]
  have ht₂ : sys₂.toWorkerLog = sys.toWorkerLog ++
      [MainThreadToParserThreadMessage.flushTreeOps] := by rw [← hsys₂]
  rw [hc₂, ← houts, ← hmsgs', List.nil_append] at h
  simp only [Option.bind_eq_bind, Option.bind_eq_some] at h
  obtain ⟨e', happly, h⟩ := h
  have hnorm : ∃ upd result,
      input.updateWithNewData (some upd) = some input' ∧
      SystemState.mk
        { state := TokenizerState.executingParseOps, executor := e',
          pending_result := some result }
        sys₂.worker [] sys₂.sentLog sys₂.toWorkerLog = sys' ∧
      ((t = ParserThreadToMainThreadMessage.tokenizerResultDone upd true ∧
          result = (none : Option Nat)) ∨
        (∃ sc live, t = ParserThreadToMainThreadMessage.tokenizerResultScript sc upd true ∧
          resolveScript e' sc = some live ∧ result = some live)) := by
    cases t with
    | tokenizerResultDone u sm =>
        cases sm with
        | true =>
            simp only [eq_self_iff_true, if_true, ite_true, Option.some_bind,
              Option.bind_eq_bind, Option.bind_eq_some, Option.some_inj,
              Prod.mk.injEq] at h
            obtain ⟨inp, hupdate, hrec, hinp⟩ := h
            refine ⟨u, none, ?_, ?_, Or.inl ⟨rfl, rfl⟩⟩
            · rw [← hinp]
              exact hupdate
            · exact hrec
        | false => simp at h
    | tokenizerResultScript sc u sm =>
        cases sm with
        | true =>
            simp only [eq_self_iff_true, if_true, ite_true, Option.some_bind,
              Option.bind_eq_bind, Option.bind_eq_some, Option.map_eq_some',
              Option.some_inj, Prod.mk.injEq] at h
            obtain ⟨y, ⟨live, hlive, hy⟩, inp, hupdate, hrec, hinp⟩ := h
            refine ⟨u, some live, ?_, ?_, Or.inr ⟨sc, live, rfl, hlive, rfl⟩⟩
            · rw [← hinp]
              rw [← hy] at hupdate
              exact hupdate
            · rw [← hy] at hrec
              exact hrec
        | false => simp at h
    | endMsg => simp at h
    | htmlTokenizerInternalState st => simp at h
    | processOperation op => simp at h
    | speculativeParseOps ops => simp at h
  obtain ⟨upd, result, hin, hs, hterm'⟩ := hnorm
  have hinput' : input' = ⟨upd, none⟩ := by
    unfold BufferQueue.updateWithNewData at hin
    simp only [Option.some_inj] at hin
    rw [← hin]
  refine ⟨e', upd, result, happly, by rw [← hs], ?_, by rw [← hs], by rw [← hs], ?_, ?_,
    ?_, ?_, ?_, ?_, hinput', hterm'⟩
  · rw [← hs]
    show e'.applied = _
    exact (applyOps_spec happly).1
  · rw [← hs]
  · rw [← hs]
    show sys₂.worker.done = false
    rw [hw₂, ← hw']
    exact hdonef
  · rw [← hs]
    show sys₂.worker.tok.sink = _
    rw [hw₂, ← hw', ← hsink']
  · rw [← hs]
    show sys₂.worker.tok.internal = _
    rw [hw₂, ← hw']
  · rw [← hs]
    show sys₂.sentLog = _
    rw [hl₂, ← houts, ← hmsgs']
  · rw [← hs]
    show sys₂.toWorkerLog = _
    exact ht₂

/-- `Tokenizer::end`: the worker emits its remaining instructions, then
exactly one end acknowledgement, and terminates; the facade applies the
trailing instructions in order and returns at the acknowledgement. -/
theorem endParse_spec {σ : Type} {M : TokModel σ} {sys sys' : SystemState σ}
    (hchan : sys.chan = [])
    (hsink : sys.worker.tok.sink.state = SinkState.sendingParseOps)
    (h : SystemState.endParse M sys = some sys') :
    ∃ ops e',
      sys.main.executor.applyOps ops = some e' ∧
      sys'.main.executor = e' ∧
      sys'.main.executor.applied = sys.main.executor.applied ++ ops ∧
      sys'.main.state = sys.main.state ∧
      sys'.main.pending_result = sys.main.pending_result ∧
      sys'.chan = [] ∧
      sys'.worker.done = true ∧
      sys'.worker.tok.sink.produced = sys.worker.tok.sink.produced ++ ops ∧
      sys'.sentLog = sys.sentLog ++
        ops.map ParserThreadToMainThreadMessage.processOperation ++
        [ParserThreadToMainThreadMessage.endMsg] ∧
      sys'.toWorkerLog = sys.toWorkerLog ++ [MainThreadToParserThreadMessage.endMsg] ∧
      sys'.worker.tok.sink.state = SinkState.sendingParseOps ∧
      IncrIn (opsInsIds ops) sys.worker.tok.sink.next_parse_node_id
        sys'.worker.tok.sink.next_parse_node_id ∧
      (sinkInv sys.worker.tok.sink → sinkInv sys'.worker.tok.sink) := by
  unfold SystemState.endParse at h
  simp only [Option.bind_eq_bind, Option.bind_eq_some] at h
  obtain ⟨sys₁, hsend, h⟩ := h
  unfold sendToWorker at hsend
  rw [Option.map_eq_some'] at hsend
  obtain ⟨⟨w', outs⟩, hws, hsys₁⟩ := hsend
  obtain ⟨ops, msgs, hstep, hdone, hdone', hint, houts⟩ := workerStep_end_spec hws
  have hmode := hstep.2.2.2
  rw [hsink] at hmode
  obtain ⟨hstate', hmsgs⟩ := hmode
  subst hmsgs
  have hm₁ : sys₁.main = sys.main := by rw [← hsys₁]
  have hc₁ : sys₁.chan = sys.chan ++ outs := by rw [← hsys₁]
  have hw₁ : sys₁.worker = w' := by rw [← hsys₁]
  have hl₁ : sys₁.sentLog = sys.sentLog ++ outs := by rw [← hsys₁]
  have ht₁ : sys₁.toWorkerLog = sys.toWorkerLog ++
      [MainThreadToParserThreadMessage.endMsg] := by rw [← hsys₁]
  rw [hm₁, hc₁, hchan, List.nil_append, houts] at h
  rw [endLoop_processOps] at h
  simp only [Option.bind_eq_bind, Option.bind_eq_some] at h
  obtain ⟨⟨e', rest⟩, ⟨e₁, happly, hterm⟩, h⟩ := h
  rw [endLoop_end] at hterm
  simp only [Option.some_inj, Prod.mk.injEq] at hterm h
  obtain ⟨he, hrest⟩ := hterm
  subst he hrest
  refine ⟨ops, e₁, happly, by rw [← h], ?_, by rw [← h], by rw [← h],
    by rw [← h], ?_, ?_, ?_, ?_, ?_, ?_, ?_⟩
  · rw [← h]
    show e₁.applied = _
    exact (applyOps_spec happly).1
  · rw [← h]
    show sys₁.worker.done = true
    rw [hw₁]
    exact hdone'
  · rw [← h]
    show sys₁.worker.tok.sink.produced = _
    rw [hw₁]
    exact hstep.1
  · rw [← h]
    show sys₁.sentLog = _
    rw [hl₁, houts, List.append_assoc]
  · rw [← h]
    exact ht₁
  · rw [← h]
    show sys₁.worker.tok.sink.state = _
    rw [hw₁]
    exact hstate'
  · rw [← h]
    show IncrIn _ _ sys₁.worker.tok.sink.next_parse_node_id
    rw [hw₁]
    exact hstep.2.1
  · intro hs
    rw [← h]
    show sinkInv sys₁.worker.tok.sink
    rw [hw₁]
    exact hstep.2.2.1 hs

/-- `Tokenizer::set_plaintext_state`: one fire-and-forget message; the
worker switches its html5ever state machine, nothing else changes. -/
theorem set_plaintext_state_spec {σ : Type} {M : TokModel σ} {sys sys' : SystemState σ}
    (h : SystemState.set_plaintext_state M sys = some sys') :
    sys'.main = sys.main ∧
    sys'.chan = sys.chan ∧
    sys'.worker.tok.sink = sys.worker.tok.sink ∧
    sys'.worker.done = sys.worker.done ∧
    sys'.sentLog = sys.sentLog ∧
    sys'.toWorkerLog = sys.toWorkerLog ++
      [MainThreadToParserThreadMessage.setPlainTextState] := by
  unfold SystemState.set_plaintext_state sendToWorker workerStep at h
  split at h
  case isTrue => exact absurd h (by simp)
  case isFalse hdone =>
  simp only [Option.map_eq_some', Option.some_inj, Prod.mk.injEq] at h
  obtain ⟨⟨w', outs⟩, hwr, hsys'⟩ := h
  simp only [Prod.mk.injEq] at hwr
  obtain ⟨hw', houts⟩ := hwr
  rw [← hsys']
  refine ⟨rfl, by rw [← houts]; simp, ?_, ?_, by rw [← houts]; simp, rfl⟩
  · show w'.tok.sink = _
    rw [← hw']
  · show w'.done = _
    rw [← hw']

/-! ### The system invariant and reachable states -/

/-- The protocol invariant of the two-thread system.  In the executing
state the channel is drained, the worker streams, and the live executor is
well-formed below the worker's minting counter.  In the speculative state
exactly the deferred terminal is in flight, the embedded snapshot holds
the live executor (well-formed below the snapshot's counter), and, as long
as no `document.write` interfered, the worker buffers a queue whose
inserted handles continue the snapshot's counter up to the worker's. -/
def Inv {σ : Type} (sys : SystemState σ) : Prop :=
  (sys.main.state = TokenizerState.executingParseOps →
    sys.chan = [] ∧
    sys.worker.tok.sink.state = SinkState.sendingParseOps ∧
    sinkInv sys.worker.tok.sink ∧
    execInv sys.main.executor sys.worker.tok.sink.next_parse_node_id) ∧
  (∀ tok dwc w, sys.main.state = TokenizerState.speculativeParsing tok dwc w →
    (∃ t, sys.chan = [t] ∧ IsSpecTerminal t) ∧
    sinkInv tok.sink ∧
    (∃ realExec, tok.sink.state = SinkState.parsingDocWriteContents realExec ∧
      execInv realExec tok.sink.next_parse_node_id) ∧
    (∃ q, sys.worker.tok.sink.state = SinkState.bufferingParseOperations q ∧
      (dwc = false →
        sinkInv sys.worker.tok.sink ∧
        IncrIn (opsInsIds q) tok.sink.next_parse_node_id
          sys.worker.tok.sink.next_parse_node_id)))

theorem isSpecTerminal_feedTerminal {σ : Type} (o : TokenizerResult)
    (l : List String) : IsSpecTerminal (feedTerminal σ o l true) := by
  cases o <;> exact rfl

theorem inv_init {σ : Type} (σ₀ : σ) (fragment : Option FragmentContext) :
    Inv (SystemState.init σ₀ fragment) := by
  obtain _ | ⟨nm, hf⟩ := fragment
  · refine ⟨fun _ => ⟨rfl, rfl, ?_, ?_⟩,
      fun tok dwc w hst => TokenizerState.noConfusion hst⟩
    · unfold sinkInv
      exact ⟨of_decide_eq_true rfl, of_decide_eq_true rfl, of_decide_eq_true rfl⟩
    · unfold execInv domOk
      exact ⟨of_decide_eq_true rfl, of_decide_eq_true rfl, rfl, rfl,
        of_decide_eq_true rfl⟩
  · cases hf
    · refine ⟨fun _ => ⟨rfl, rfl, ?_, ?_⟩,
        fun tok dwc w hst => TokenizerState.noConfusion hst⟩
      · unfold sinkInv
        exact ⟨of_decide_eq_true rfl, of_decide_eq_true rfl, of_decide_eq_true rfl⟩
      · unfold execInv domOk
        exact ⟨of_decide_eq_true rfl, of_decide_eq_true rfl, rfl, rfl,
          of_decide_eq_true rfl⟩
    · refine ⟨fun _ => ⟨rfl, rfl, ?_, ?_⟩,
        fun tok dwc w hst => TokenizerState.noConfusion hst⟩
      · unfold sinkInv
        exact ⟨of_decide_eq_true rfl, of_decide_eq_true rfl, of_decide_eq_true rfl⟩
      · unfold execInv domOk
        exact ⟨of_decide_eq_true rfl, of_decide_eq_true rfl, rfl, rfl,
          of_decide_eq_true rfl⟩

theorem inv_feed {σ : Type} {M : TokModel σ} {sys sys' : SystemState σ}
    {input input' : BufferQueue} {r : FeedResult}
    (hinv : Inv sys) (h : SystemState.feed M sys input = some (sys', r, input')) :
    Inv sys' := by
  obtain ⟨hex, hsp⟩ := hinv
  cases hstate : sys.main.state with
  | executingParseOps =>
      obtain ⟨hchan, hsink, hsinkinv, hexecinv⟩ := hex hstate
      cases hpend : sys.main.pending_result with
      | some r₀ =>
          rw [feed_pending_spec M sys input hstate hpend] at h
          simp only [Option.some_inj, Prod.mk.injEq] at h
          obtain ⟨hs, hr, hi⟩ := h
          refine ⟨fun _ => ?_, fun tok dwc w hst => ?_⟩
          · rw [← hs]
            exact ⟨hchan, hsink, hsinkinv, hexecinv⟩
          · rw [← hs] at hst
            have h₂ : sys.main.state = TokenizerState.speculativeParsing tok dwc w := hst
            rw [hstate] at h₂
            exact TokenizerState.noConfusion h₂
      | none =>
          obtain ⟨ops, e', happly, hexec', happlied, hprod, hstate', hpend', hchan',
            hdone', hsink', hint', hsent', htw', hinput', hdoneok, hscr, hincr,
            hsinv⟩ := feed_executing_spec hstate hpend hchan hsink h
          refine ⟨fun _ => ⟨hchan', hsink', hsinv hsinkinv, ?_⟩,
            fun tok dwc w hst => ?_⟩
          · rw [hexec']
            exact execInv_applyOps hexecinv hincr happly
          · rw [hstate'] at hst
            exact TokenizerState.noConfusion hst
  | speculativeParsing tok dwc w =>
      obtain ⟨⟨t, hchan, hterm⟩, hsinkinv, ⟨realExec, hexec, hexecinv⟩, q, hq, hdwc⟩ :=
        hsp tok dwc w hstate
      obtain ⟨fr, hfeed, hstate', hpend', hexec', hworker', hchan', hsent', htw',
        hinput', hmsgs, hint, hdone'⟩ := feed_speculating_spec hstate h
      obtain ⟨ops, hstep, hint₂, hres₂, hleft₂⟩ := htmlTokenizer_feed_spec hfeed
      have hmode := hstep.2.2.2
      rw [hexec] at hmode
      obtain ⟨hmsgs₂, ex', happly₂, hsinkst'⟩ := hmode
      refine ⟨fun hst => ?_, fun tok₂ dwc₂ w₂ hst => ?_⟩
      · rw [hstate'] at hst
        exact TokenizerState.noConfusion hst
      · rw [hstate'] at hst
        injection hst with h₁ h₂ h₃
        subst h₁
        refine ⟨⟨t, by rw [hchan']; exact hchan, hterm⟩, hstep.2.2.1 hsinkinv,
          ⟨ex', hsinkst', execInv_applyOps hexecinv hstep.2.1 happly₂⟩,
          ⟨q, by rw [hworker']; exact hq, fun hff => ?_⟩⟩
        rw [← h₂] at hff
        exact Bool.noConfusion hff

theorem inv_startSpec {σ : Type} {M : TokModel σ} {sys sys' : SystemState σ}
    {input input' : BufferQueue}
    (hinv : Inv sys)
    (h : SystemState.start_speculative_parsing M sys input = some (sys', input')) :
    Inv sys' := by
  obtain ⟨hex, hsp⟩ := hinv
  cases hstate : sys.main.state with
  | executingParseOps =>
      obtain ⟨hchan, hsink, hsinkinv, hexecinv⟩ := hex hstate
      obtain ⟨ops, hstate', hexec', hpend', hdone', hsinkst', hstep, hint', hchan',
        hsent', htw', hinput'⟩ := start_speculative_parsing_spec hchan h
      refine ⟨fun hst => ?_, fun tok₂ dwc₂ w₂ hst => ?_⟩
      · rw [hstate'] at hst
        exact TokenizerState.noConfusion hst
      · rw [hstate'] at hst
        injection hst with h₁ h₂ h₃
        subst h₁
        refine ⟨⟨feedTerminal σ (feedStepOf M sys input).outcome
            (feedStepOf M sys input).leftover true,
            by rw [hchan'], isSpecTerminal_feedTerminal _ _⟩,
          hsinkinv, ⟨sys.main.executor, rfl, hexecinv⟩,
          ⟨ops, hsinkst', fun _ => ⟨hstep.2.2.1 hsinkinv, hstep.2.1⟩⟩⟩
  | speculativeParsing tok dwc w =>
      obtain ⟨⟨t, hchan, hterm⟩, _, _, _⟩ := hsp tok dwc w hstate
      unfold SystemState.start_speculative_parsing at h
      simp only [Option.bind_eq_bind, Option.bind_eq_some] at h
      obtain ⟨sys₁, hsend, h⟩ := h
      unfold sendToWorker at hsend
      rw [Option.map_eq_some'] at hsend
      obtain ⟨⟨w', outs⟩, hws, hsys₁⟩ := hsend
      have hc₁ : sys₁.chan = sys.chan ++ outs := by rw [← hsys₁]
      rw [hc₁, hchan] at h
      cases t with
      | tokenizerResultDone u sm => simp at h
      | tokenizerResultScript sc u sm => simp at h
      | endMsg => exact hterm.elim
      | htmlTokenizerInternalState st => exact hterm.elim
      | processOperation op => exact hterm.elim
      | speculativeParseOps ops => exact hterm.elim

theorem inv_endSpec {σ : Type} {M : TokModel σ} {sys sys' : SystemState σ}
    {input input' : BufferQueue} {bl : Bool}
    (hinv : Inv sys)
    (h : SystemState.end_speculative_parsing M sys input bl = some (sys', input')) :
    Inv sys' := by
  obtain ⟨hex, hsp⟩ := hinv
  cases hstate : sys.main.state with
  | executingParseOps =>
      unfold SystemState.end_speculative_parsing at h
      rw [hstate] at h
      exact Option.noConfusion h
  | speculativeParsing tok dwc w =>
      obtain ⟨⟨t, hchan, hterm⟩, hsinkinv, ⟨realExec, hexec, hexecinv⟩, q, hq, hdwc⟩ :=
        hsp tok dwc w hstate
      cases bl with
      | true =>
          rw [end_speculative_parsing_blocking_spec M sys input hstate] at h
          simp only [Option.some_inj, Prod.mk.injEq] at h
          obtain ⟨hs, hi⟩ := h
          refine ⟨fun hst => ?_, fun tok₂ dwc₂ w₂ hst => ?_⟩
          · rw [← hs] at hst
            exact TokenizerState.noConfusion hst
          · rw [← hs] at hst
            have h₂ : TokenizerState.speculativeParsing tok dwc true =
                TokenizerState.speculativeParsing tok₂ dwc₂ w₂ := hst
            injection h₂ with h₁ h₂' h₃
            subst h₁
            refine ⟨⟨t, by rw [← hs]; exact hchan, hterm⟩, hsinkinv,
              ⟨realExec, hexec, hexecinv⟩,
              ⟨q, by rw [← hs]; exact hq, fun hff => ?_⟩⟩
            rw [← h₂'] at hff
            obtain ⟨h₄, h₅⟩ := hdwc hff
            exact ⟨by rw [← hs]; exact h₄, by rw [← hs]; exact h₅⟩
      | false =>
          cases hdw : dwc with
          | true =>
              rw [hdw] at hstate
              obtain ⟨hpend, hstate', hexec', hpend', hdone', hwork', hchan', hsent',
                htw', hin⟩ := end_speculative_parsing_invalid_spec hstate
                  (by rw [hchan]) hexec h
              refine ⟨fun _ => ?_, fun tok₂ dwc₂ w₂ hst => ?_⟩
              · refine ⟨hchan', ?_, ?_, ?_⟩
                · rw [hwork']
                · rw [hwork']
                  exact hsinkinv
                · rw [hexec', hwork']
                  exact hexecinv
              · rw [hstate'] at hst
                exact TokenizerState.noConfusion hst
          | false =>
              rw [hdw] at hstate
              obtain ⟨hwq, hwincr⟩ := hdwc hdw
              obtain ⟨e', upd, result, happly, hexec', happlied, hstate', hpend',
                hchan', hdone', hsink', hint', hsent', htw', hinput', hterm'⟩ :=
                end_speculative_parsing_confirmed_spec hstate hchan hq hexec h
              refine ⟨fun _ => ?_, fun tok₂ dwc₂ w₂ hst => ?_⟩
              · refine ⟨hchan', ?_, ?_, ?_⟩
                · rw [hsink']
                · rw [hsink']
                  exact hwq
                · rw [hexec', hsink']
                  exact execInv_applyOps hexecinv hwincr happly
              · rw [hstate'] at hst
                exact TokenizerState.noConfusion hst

theorem inv_endP {σ : Type} {M : TokModel σ} {sys sys' : SystemState σ}
    (hinv : Inv sys) (h : SystemState.endParse M sys = some sys') : Inv sys' := by
  obtain ⟨hex, hsp⟩ := hinv
  cases hstate : sys.main.state with
  | executingParseOps =>
      obtain ⟨hchan, hsink, hsinkinv, hexecinv⟩ := hex hstate
      obtain ⟨ops, e', happly, hexec', happlied, hstate', hpend', hchan', hdone',
        hprod', hsent', htw', hsinkst', hincr, hsinv⟩ := endParse_spec hchan hsink h
      refine ⟨fun _ => ⟨hchan', hsinkst', hsinv hsinkinv, ?_⟩,
        fun tok₂ dwc₂ w₂ hst => ?_⟩
      · rw [hexec']
        exact execInv_applyOps hexecinv hincr happly
      · rw [hstate', hstate] at hst
        exact TokenizerState.noConfusion hst
  | speculativeParsing tok dwc w =>
      obtain ⟨⟨t, hchan, hterm⟩, _, _, q, hq, _⟩ := hsp tok dwc w hstate
      unfold SystemState.endParse at h
      simp only [Option.bind_eq_bind, Option.bind_eq_some] at h
      obtain ⟨sys₁, hsend, h⟩ := h
      unfold sendToWorker at hsend
      rw [Option.map_eq_some'] at hsend
      obtain ⟨⟨w', outs⟩, hws, hsys₁⟩ := hsend
      have hc₁ : sys₁.chan = sys.chan ++ outs := by rw [← hsys₁]
      rw [hc₁, hchan] at h
      cases t with
      | tokenizerResultDone u sm => simp [endLoop] at h
      | tokenizerResultScript sc u sm => simp [endLoop] at h
      | endMsg => exact hterm.elim
      | htmlTokenizerInternalState st => exact hterm.elim
      | processOperation op => exact hterm.elim
      | speculativeParseOps ops => exact hterm.elim

theorem inv_plaintext {σ : Type} {M : TokModel σ} {sys sys' : SystemState σ}
    (hinv : Inv sys) (h : SystemState.set_plaintext_state M sys = some sys') :
    Inv sys' := by
  obtain ⟨hmain, hchan, hsink, hdone, hsent, htw⟩ := set_plaintext_state_spec h
  obtain ⟨hex, hsp⟩ := hinv
  refine ⟨fun hst => ?_, fun tok dwc w hst => ?_⟩
  · rw [hmain] at hst
    obtain ⟨h₁, h₂, h₃, h₄⟩ := hex hst
    exact ⟨by rw [hchan]; exact h₁, by rw [hsink]; exact h₂,
      by rw [hsink]; exact h₃, by rw [hmain, hsink]; exact h₄⟩
  · rw [hmain] at hst
    obtain ⟨⟨t, hc, ht⟩, hsi, ⟨re, hre, hei⟩, q, hq, hdw⟩ := hsp tok dwc w hst
    exact ⟨⟨t, by rw [hchan]; exact hc, ht⟩, hsi, ⟨re, hre, hei⟩,
      ⟨q, by rw [hsink]; exact hq,
        fun hf => ⟨by rw [hsink]; exact (hdw hf).1, by rw [hsink]; exact (hdw hf).2⟩⟩⟩

/-- The states this system can be in: freshly constructed, or the result
of any facade call (`feed`, `start_speculative_parsing`,
`end_speculative_parsing`, `end`, `set_plaintext_state`) on a reachable
state. -/
inductive Reachable {σ : Type} (M : TokModel σ) : SystemState σ → Prop where
  | init (σ₀ : σ) (fragment : Option FragmentContext) :
      Reachable M (SystemState.init σ₀ fragment)
  | feed {sys sys' : SystemState σ} {input input' : BufferQueue} {r : FeedResult}
      (hr : Reachable M sys)
      (h : SystemState.feed M sys input = some (sys', r, input')) :
      Reachable M sys'
  | startSpec {sys sys' : SystemState σ} {input input' : BufferQueue}
      (hr : Reachable M sys)
      (h : SystemState.start_speculative_parsing M sys input = some (sys', input')) :
      Reachable M sys'
  | endSpec {sys sys' : SystemState σ} {input input' : BufferQueue} {bl : Bool}
      (hr : Reachable M sys)
      (h : SystemState.end_speculative_parsing M sys input bl = some (sys', input')) :
      Reachable M sys'
  | endP {sys sys' : SystemState σ}
      (hr : Reachable M sys)
      (h : SystemState.endParse M sys = some sys') :
      Reachable M sys'
  | plaintext {sys sys' : SystemState σ}
      (hr : Reachable M sys)
      (h : SystemState.set_plaintext_state M sys = some sys') :
      Reachable M sys'

/-- Every reachable state satisfies the protocol invariant. -/
theorem reachable_inv {σ : Type} {M : TokModel σ} {sys : SystemState σ}
    (h : Reachable M sys) : Inv sys := by
  induction h with
  | init σ₀ fragment => exact inv_init σ₀ fragment
  | feed hr h ih => exact inv_feed ih h
  | startSpec hr h ih => exact inv_startSpec ih h
  | endSpec hr h ih => exact inv_endSpec ih h
  | endP hr h ih => exact inv_endP ih h
  | plaintext hr h ih => exact inv_plaintext ih h

/-! ### A concrete instantiation of the black box

A minimal deterministic tokenizer model used to evaluate the system on
concrete inputs: every feed performs one `create_comment` callback and
consumes its whole input, appending it to the internal state; `end`
performs one final `create_comment`. -/

def TM : TokModel (List String) where
  feedActions s inp :=
    { actions := [BuilderAction.createComment "x"]
      outcome := TokenizerResult.done
      nextInternal := s ++ inp
      leftover := [] }
  endActions s := ([BuilderAction.createComment "z"], s)
  plaintext s := s

/-- The concrete system at construction: no fragment context. -/
def sysInit : SystemState (List String) := SystemState.init [] none

/-- A one-chunk input buffer. -/
def inA : BufferQueue := ⟨["a"], none⟩

/-- A confirmed speculation: speculative feed, then
`end_speculative_parsing` with no `document.write` in between. -/
def specRun : Option (SystemState (List String) × BufferQueue) := do
  let (s₁, i₁) ← SystemState.start_speculative_parsing TM sysInit inA
  SystemState.end_speculative_parsing TM s₁ i₁ false

/-- An invalidated speculation: speculative feed, a `document.write`
feed inside the window, then `end_speculative_parsing` (rollback). -/
def rollRun : Option (SystemState (List String) × BufferQueue) := do
  let (s₁, i₁) ← SystemState.start_speculative_parsing TM sysInit inA
  let (s₂, _, _) ← SystemState.feed TM s₁ ⟨["w"], none⟩
  SystemState.end_speculative_parsing TM s₂ i₁ false

/-- Intermediate state of `specRun`, after `start_speculative_parsing`. -/
def specMid : SystemState (List String) × BufferQueue :=
  (SystemState.start_speculative_parsing TM sysInit inA).get (by decide)

/-- Intermediate state of `rollRun`, after the in-window write. -/
def rollMid : SystemState (List String) × FeedResult × BufferQueue :=
  (SystemState.feed TM specMid.1 ⟨["w"], none⟩).get (by decide)

/-- The payload of a `RestoreInternalState` message. -/
def restorePayloadOf {σ : Type} :
    MainThreadToParserThreadMessage σ → Option (HtmlTokenizer σ)
  | .restoreInternalState t => some t
  | _ => none

/-- Whether a worker-to-main message is a `BufferedInstructions`
(`SpeculativeParseOps`) reply. -/
def isSpecOpsMsg {σ : Type} : ParserThreadToMainThreadMessage σ → Bool
  | .speculativeParseOps _ => true
  | _ => false

/-- Whether a worker-to-main message is a deferred speculative terminal. -/
def isDeferredTerminalMsg {σ : Type} : ParserThreadToMainThreadMessage σ → Bool
  | .tokenizerResultDone _ sm => sm
  | .tokenizerResultScript _ _ sm => sm
  | _ => false

/-- The `ProcessOperation` payload of a worker-to-main message. -/
def msgOp {σ : Type} : ParserThreadToMainThreadMessage σ → Option ParseOperation
  | .processOperation op => some op
  | _ => none

theorem filterMap_msgOp_map {σ : Type} (ops : List ParseOperation)
    (rest : List (ParserThreadToMainThreadMessage σ))
    (hrest : rest.filterMap msgOp = []) :
    ((ops.map ParserThreadToMainThreadMessage.processOperation) ++ rest).filterMap
      (msgOp (σ := σ)) = ops := by
  induction ops with
  | nil => simpa using hrest
  | cons op tail ih => simpa [msgOp] using ih

/-- Result of the direct (non-speculative) feed of `sysInit` on `inA`. -/
def feedFin : SystemState (List String) × FeedResult × BufferQueue :=
  (SystemState.feed TM sysInit inA).get (by decide)

/-- End state of `specRun` (confirmed speculation). -/
def specFin : SystemState (List String) × BufferQueue :=
  (SystemState.end_speculative_parsing TM specMid.1 specMid.2 false).get (by decide)

/-- End state of `rollRun` (invalidated speculation). -/
def rollFin : SystemState (List String) × BufferQueue :=
  (SystemState.end_speculative_parsing TM rollMid.1 specMid.2 false).get (by decide)

/-- The snapshot tokenizer embedded in the facade after
`start_speculative_parsing` in `specRun`. -/
def specTok : HtmlTokenizer (List String) :=
  match specMid.1.main.state with
  | TokenizerState.speculativeParsing t _ _ => t
  | _ => { internal := [], sink := Sink.new }

/-- The embedded tokenizer after the in-window `document.write` of
`rollRun`. -/
def rollTok : HtmlTokenizer (List String) :=
  match rollMid.1.main.state with
  | TokenizerState.speculativeParsing t _ _ => t
  | _ => { internal := [], sink := Sink.new }

/-- The buffered queue held by the worker Sink after the speculative feed
of `specRun`. -/
def specQ : List ParseOperation :=
  match specMid.1.worker.tok.sink.state with
  | SinkState.bufferingParseOperations q => q
  | _ => []

/-! ### The claims -/

/-- Claim C1, corrected.  The claim reads: after an invalidated
speculation (`document_write_seen` true), `end_speculative_parsing` with
`script_is_blocking` false sends `RestoreInternalState` carrying *the
pre-speculation snapshot*, so the worker's tokenizer becomes observably
identical to its state immediately before the speculative window began.
The code instead sends the *embedded tokenizer's current state* — the
snapshot advanced by whatever `document.write` content was fed inside the
window (with its Sink switched back to streaming); the worker adopts that
state wholesale, so after rollback the worker continues from the
write-advanced state, not the pre-window state
(`claim_C1_counterexample`).  This amended theorem states the actual
behaviour: the restore payload and the worker's adopted tokenizer equal
the embedded tokenizer with its Sink set to streaming; the buffered
instructions disappear with the replaced Sink, the pending result is
cleared, the facade repossesses the live executor and returns to
`Executing`, and the caller's buffer is reset from the pre-speculation
copy. -/
theorem claim_C1_amended {σ : Type} {M : TokModel σ} {sys sys' : SystemState σ}
    {input input' : BufferQueue} {tok : HtmlTokenizer σ} {w : Bool}
    {realExec : ParseOperationExecutor} {t : ParserThreadToMainThreadMessage σ}
    {rest : List (ParserThreadToMainThreadMessage σ)}
    (hstate : sys.main.state = TokenizerState.speculativeParsing tok true w)
    (hchan : sys.chan = t :: rest)
    (hexec : tok.sink.state = SinkState.parsingDocWriteContents realExec)
    (h : SystemState.end_speculative_parsing M sys input false = some (sys', input')) :
    sys'.toWorkerLog = sys.toWorkerLog ++
      [MainThreadToParserThreadMessage.restoreInternalState
        { tok with sink := { tok.sink with state := SinkState.sendingParseOps } }] ∧
    sys'.worker.tok =
      { tok with sink := { tok.sink with state := SinkState.sendingParseOps } } ∧
    sys'.main.state = TokenizerState.executingParseOps ∧
    sys'.main.pending_result = none ∧
    sys'.main.executor = realExec ∧
    sys'.chan = rest ∧
    sys'.sentLog = sys.sentLog ∧
    input.updateWithNewData none = some input' := by
  obtain ⟨h₁, h₂, h₃, h₄, h₅, h₆, h₇, h₈, h₉, h₁₀⟩ :=
    end_speculative_parsing_invalid_spec hstate hchan hexec h
  exact ⟨h₉, h₆, h₂, h₄, h₃, h₇, h₈, h₁₀⟩

theorem claim_C1_amended_witness :
    rollFin.1.toWorkerLog = rollMid.1.toWorkerLog ++
      [MainThreadToParserThreadMessage.restoreInternalState
        { rollTok with sink :=
          { rollTok.sink with state := SinkState.sendingParseOps } }] ∧
    rollFin.1.worker.tok =
      { rollTok with sink := { rollTok.sink with state := SinkState.sendingParseOps } } ∧
    rollFin.1.main.state = TokenizerState.executingParseOps ∧
    rollFin.1.main.pending_result = none ∧
    rollFin.1.main.executor =
      (match rollTok.sink.state with
       | SinkState.parsingDocWriteContents e => e
       | _ => ParseOperationExecutor.new true (initialDom none)) ∧
    rollFin.1.chan = [] ∧
    rollFin.1.sentLog = rollMid.1.sentLog ∧
    specMid.2.updateWithNewData none = some rollFin.2 :=
  claim_C1_amended (M := TM) rfl rfl rfl rfl

/-- Claim C1, counterexample to the claimed rollback payload.  In the
concrete run `rollRun` the only `RestoreInternalState` ever sent carries a
tokenizer whose internal state is `["w"]` — the snapshot advanced by the
in-window `document.write` content — whereas the worker's internal state
immediately before the speculative window began was `[]`; the payload is
therefore not the pre-speculation snapshot, and after the restore the
worker is not in its pre-window state. -/
theorem claim_C1_counterexample :
    rollRun.map (fun r => (r.1.toWorkerLog.filterMap restorePayloadOf).map
      (fun t => t.internal)) = some [["w"]] ∧
    sysInit.worker.tok.internal = ([] : List String) ∧
    ¬ (["w"] = ([] : List String)) :=
  ⟨rfl, rfl, by decide⟩

/-- Claim C3, corrected.  The claim reads: the `BufferedInstructions`
reply to `FlushBufferedInstructions` is *followed* by the deferred
`Done`/`BlockedOnScript` terminal of the speculative feed — i.e. on the
worker-to-main channel the reply precedes the terminal.  In the code the
worker sends the deferred terminal at the end of the speculative feed
itself, long before the facade requests the flush, so on the
worker-to-main channel the terminal *precedes* the single
`SpeculativeParseOps` reply (`claim_C3_counterexample`).  This amended
theorem states the actual order for a confirmed speculation: the worker
sends the internal-state snapshot, then the deferred terminal, and the
flush is answered by exactly one `SpeculativeParseOps` message carrying
the entire buffered queue, sent after both. -/
theorem claim_C3_amended {σ : Type} {M : TokModel σ}
    {sys sys₁ sys₂ : SystemState σ} {input input₁ input₂ : BufferQueue}
    (hchan : sys.chan = [])
    (h₁ : SystemState.start_speculative_parsing M sys input = some (sys₁, input₁))
    (h₂ : SystemState.end_speculative_parsing M sys₁ input₁ false = some (sys₂, input₂)) :
    ∃ q,
      sys₁.worker.tok.sink.state = SinkState.bufferingParseOperations q ∧
      sys₂.sentLog = sys.sentLog ++
        [ParserThreadToMainThreadMessage.htmlTokenizerInternalState sys.worker.tok,
         feedTerminal σ (feedStepOf M sys input).outcome
           (feedStepOf M sys input).leftover true,
         ParserThreadToMainThreadMessage.speculativeParseOps q] ∧
      sys₂.toWorkerLog = sys₁.toWorkerLog ++ [MainThreadToParserThreadMessage.flushTreeOps] ∧
      sys₂.chan = [] := by
  obtain ⟨ops, hstate₁, hexec₁, hpend₁, hdone₁, hq₁, hstep₁, hint₁, hchan₁, hsent₁,
    htw₁, hinput₁⟩ := start_speculative_parsing_spec hchan h₁
  obtain ⟨e', upd, result, happly, hexec₂, happlied, hstate₂, hpend₂, hchan₂, hdone₂,
    hsink₂, hint₂, hsent₂, htw₂, hinput₂, hterm₂⟩ :=
    end_speculative_parsing_confirmed_spec hstate₁ hchan₁ hq₁ rfl h₂
  refine ⟨ops, hq₁, ?_, htw₂, hchan₂⟩
  rw [hsent₂, hsent₁, List.append_assoc]
  rfl

theorem claim_C3_amended_witness :
    ∃ q,
      specMid.1.worker.tok.sink.state = SinkState.bufferingParseOperations q ∧
      specFin.1.sentLog = sysInit.sentLog ++
        [ParserThreadToMainThreadMessage.htmlTokenizerInternalState sysInit.worker.tok,
         feedTerminal (List String) (feedStepOf TM sysInit inA).outcome
           (feedStepOf TM sysInit inA).leftover true,
         ParserThreadToMainThreadMessage.speculativeParseOps q] ∧
      specFin.1.toWorkerLog = specMid.1.toWorkerLog ++
        [MainThreadToParserThreadMessage.flushTreeOps] ∧
      specFin.1.chan = [] :=
  claim_C3_amended (M := TM) rfl rfl rfl

/-- The complete worker-to-main send history of `specRun`. -/
def c3log : List (ParserThreadToMainThreadMessage (List String)) :=
  [ParserThreadToMainThreadMessage.htmlTokenizerInternalState
     { internal := [], sink := Sink.new },
   ParserThreadToMainThreadMessage.tokenizerResultDone [] true,
   ParserThreadToMainThreadMessage.speculativeParseOps
     [ParseOperation.createComment "x" 1]]

/-- Claim C3, counterexample to the claimed channel order.  In the
concrete confirmed speculation `specRun`, the complete worker-to-main send
history is snapshot, deferred terminal, `SpeculativeParseOps`: every
deferred-terminal message in it comes strictly *before* every
`SpeculativeParseOps` message, so the claimed order (the
`BufferedInstructions` reply followed by the deferred terminal) never
occurs. -/
theorem claim_C3_counterexample :
    specRun.map (fun r => r.1.sentLog) = some c3log ∧
    ¬ (∀ i j : Fin c3log.length,
        isSpecOpsMsg (c3log.get i) = true →
        isDeferredTerminalMsg (c3log.get j) = true →
        (i : Nat) < (j : Nat)) :=
  ⟨rfl, by decide⟩

/-- Claim C4, confirmed.  A `feed` while the facade is speculating feeds
the embedded snapshot tokenizer directly — the worker, the channel and
both message histories are untouched, so no channel message is sent — the
`document_write_called` flag is set to `true` unconditionally whatever its
previous value (so it latches across repeated calls), and any previously
computed pending speculative result is discarded. -/
theorem claim_C4 {σ : Type} {M : TokModel σ} {sys sys' : SystemState σ}
    {tok : HtmlTokenizer σ} {dwc waiting : Bool}
    {input input' : BufferQueue} {r : FeedResult}
    (hstate : sys.main.state = TokenizerState.speculativeParsing tok dwc waiting)
    (h : SystemState.feed M sys input = some (sys', r, input')) :
    ∃ fr, HtmlTokenizer.feed M tok input.buffers = some fr ∧
      sys'.main.state = TokenizerState.speculativeParsing fr.tok true waiting ∧
      sys'.main.pending_result = none ∧
      sys'.worker = sys.worker ∧
      sys'.chan = sys.chan ∧
      sys'.sentLog = sys.sentLog ∧
      sys'.toWorkerLog = sys.toWorkerLog := by
  obtain ⟨fr, hfeed, h₁, h₂, h₃, h₄, h₅, h₆, h₇, h₈, h₉, h₁₀, h₁₁⟩ :=
    feed_speculating_spec hstate h
  exact ⟨fr, hfeed, h₁, h₂, h₄, h₅, h₆, h₇⟩

theorem claim_C4_witness :
    ∃ fr, HtmlTokenizer.feed TM specTok ["w"] = some fr ∧
      rollMid.1.main.state = TokenizerState.speculativeParsing fr.tok true false ∧
      rollMid.1.main.pending_result = none ∧
      rollMid.1.worker = specMid.1.worker ∧
      rollMid.1.chan = specMid.1.chan ∧
      rollMid.1.sentLog = specMid.1.sentLog ∧
      rollMid.1.toWorkerLog = specMid.1.toWorkerLog :=
  claim_C4 (M := TM)
    (rfl : specMid.1.main.state =
      TokenizerState.speculativeParsing specTok false false)
    (rfl : SystemState.feed TM specMid.1 ⟨["w"], none⟩ =
      some (rollMid.1, rollMid.2.1, rollMid.2.2))

/-- Claim C2, confirmed.  The instructions the executor applies to the
live tree are exactly the instructions the worker-side Sink produced, in
production order, each exactly once.  First conjunct (direct-streaming
path): a `feed` in the executing state extends the executor's applied
history and the Sink's production history by one and the same instruction
list.  Second conjunct (buffered/speculative replay path): the confirmed
`end_speculative_parsing` extends the applied history of the repossessed
live executor by exactly the buffered queue, front to back, while the
worker's production history is unchanged (the queue was recorded in it
when the worker produced those instructions during the speculative
feed). -/
theorem claim_C2 {σ : Type} (M : TokModel σ) :
    (∀ (sys sys' : SystemState σ) (input input' : BufferQueue) (r : FeedResult),
      sys.main.state = TokenizerState.executingParseOps →
      sys.main.pending_result = none →
      sys.chan = [] →
      sys.worker.tok.sink.state = SinkState.sendingParseOps →
      SystemState.feed M sys input = some (sys', r, input') →
      ∃ ops, sys'.main.executor.applied = sys.main.executor.applied ++ ops ∧
        sys'.worker.tok.sink.produced = sys.worker.tok.sink.produced ++ ops) ∧
    (∀ (sys sys' : SystemState σ) (input input' : BufferQueue)
      (tok : HtmlTokenizer σ) (w : Bool) (realExec : ParseOperationExecutor)
      (t : ParserThreadToMainThreadMessage σ) (q : List ParseOperation),
      sys.main.state = TokenizerState.speculativeParsing tok false w →
      sys.chan = [t] →
      sys.worker.tok.sink.state = SinkState.bufferingParseOperations q →
      tok.sink.state = SinkState.parsingDocWriteContents realExec →
      SystemState.end_speculative_parsing M sys input false = some (sys', input') →
      sys'.main.executor.applied = realExec.applied ++ q ∧
      sys'.worker.tok.sink.produced = sys.worker.tok.sink.produced) := by
  constructor
  · intro sys sys' input input' r hstate hpend hchan hsink h
    obtain ⟨ops, e', happly, hexec', happlied, hprod, hrest⟩ :=
      feed_executing_spec hstate hpend hchan hsink h
    exact ⟨ops, happlied, hprod⟩
  · intro sys sys' input input' tok w realExec t q hstate hchan hq hexec h
    obtain ⟨e', upd, result, happly, hexec', happlied, hstate', hpend', hchan',
      hdone', hsink', hint', hsent', htw', hinput', hterm'⟩ :=
      end_speculative_parsing_confirmed_spec hstate hchan hq hexec h
    refine ⟨happlied, ?_⟩
    rw [hsink']

theorem claim_C2_witness :
    (∃ ops, feedFin.1.main.executor.applied =
        sysInit.main.executor.applied ++ ops ∧
      feedFin.1.worker.tok.sink.produced =
        sysInit.worker.tok.sink.produced ++ ops) ∧
    (specFin.1.main.executor.applied = sysInit.main.executor.applied ++ specQ ∧
      specFin.1.worker.tok.sink.produced = specMid.1.worker.tok.sink.produced) :=
  ⟨(claim_C2 TM).1 sysInit feedFin.1 inA feedFin.2.2 feedFin.2.1 rfl rfl rfl rfl
      (rfl : SystemState.feed TM sysInit inA =
        some (feedFin.1, feedFin.2.1, feedFin.2.2)),
   (claim_C2 TM).2 specMid.1 specFin.1 specMid.2 specFin.2 specTok false
      sysInit.main.executor (ParserThreadToMainThreadMessage.tokenizerResultDone [] true)
      specQ rfl rfl rfl rfl
      (rfl : SystemState.end_speculative_parsing TM specMid.1 specMid.2 false =
        some (specFin.1, specFin.2))⟩

/-- Claim C5, confirmed.  First conjunct: a `feed` in the executing state
with a pending speculative result consumes it and returns it — `Ok` when
the speculation ended `Done` (inner `none`), `Err` with the blocking
script when it ended blocked — without touching the worker, the channel or
either message history, and clearing the pending slot (so exactly the next
`feed` call gets it).  Second conjunct: the pending result is stored by
the confirmed branch of `end_speculative_parsing`, as the value matching
the deferred terminal of the speculation. -/
theorem claim_C5 {σ : Type} (M : TokModel σ) :
    (∀ (sys : SystemState σ) (input : BufferQueue) (r : Option Nat),
      sys.main.state = TokenizerState.executingParseOps →
      sys.main.pending_result = some r →
      SystemState.feed M sys input = some
        ({ sys with main := { sys.main with pending_result := none } },
         (match r with
          | none => FeedResult.ok
          | some live => FeedResult.err live),
         input)) ∧
    (∀ (sys sys' : SystemState σ) (input input' : BufferQueue)
      (tok : HtmlTokenizer σ) (w : Bool) (realExec : ParseOperationExecutor)
      (t : ParserThreadToMainThreadMessage σ) (q : List ParseOperation),
      sys.main.state = TokenizerState.speculativeParsing tok false w →
      sys.chan = [t] →
      sys.worker.tok.sink.state = SinkState.bufferingParseOperations q →
      tok.sink.state = SinkState.parsingDocWriteContents realExec →
      SystemState.end_speculative_parsing M sys input false = some (sys', input') →
      ∃ e' upd result,
        sys'.main.executor = e' ∧
        sys'.main.pending_result = some result ∧
        ((t = ParserThreadToMainThreadMessage.tokenizerResultDone upd true ∧
            result = none) ∨
          (∃ sc live,
            t = ParserThreadToMainThreadMessage.tokenizerResultScript sc upd true ∧
            resolveScript e' sc = some live ∧ result = some live))) := by
  constructor
  · intro sys input r hstate hpend
    cases r with
    | none => exact feed_pending_spec M sys input hstate hpend
    | some live => exact feed_pending_spec M sys input hstate hpend
  · intro sys sys' input input' tok w realExec t q hstate hchan hq hexec h
    obtain ⟨e', upd, result, happly, hexec', happlied, hstate', hpend', hchan',
      hdone', hsink', hint', hsent', htw', hinput', hterm'⟩ :=
      end_speculative_parsing_confirmed_spec hstate hchan hq hexec h
    exact ⟨e', upd, result, hexec', hpend', hterm'⟩

theorem claim_C5_witness :
    SystemState.feed TM specFin.1 inA = some
      ({ specFin.1 with main := { specFin.1.main with pending_result := none } },
       FeedResult.ok, inA) ∧
    (∃ e' upd result,
      specFin.1.main.executor = e' ∧
      specFin.1.main.pending_result = some result ∧
      (((ParserThreadToMainThreadMessage.tokenizerResultDone [] true :
            ParserThreadToMainThreadMessage (List String)) =
          ParserThreadToMainThreadMessage.tokenizerResultDone upd true ∧
          result = none) ∨
        (∃ sc live,
          (ParserThreadToMainThreadMessage.tokenizerResultDone [] true :
            ParserThreadToMainThreadMessage (List String)) =
            ParserThreadToMainThreadMessage.tokenizerResultScript sc upd true ∧
          resolveScript e' sc = some live ∧ result = some live))) :=
  ⟨(claim_C5 TM).1 specFin.1 inA none rfl rfl,
   (claim_C5 TM).2 specMid.1 specFin.1 specMid.2 specFin.2 specTok false
      sysInit.main.executor (ParserThreadToMainThreadMessage.tokenizerResultDone [] true)
      specQ rfl rfl rfl rfl
      (rfl : SystemState.end_speculative_parsing TM specMid.1 specMid.2 false =
        some (specFin.1, specFin.2))⟩

/-- Claim C6, corrected.  The claim reads: *every* tree-builder callback —
`get_template_contents` among those listed — is translated into exactly
one Instruction, routed by the current mode.  This holds for every
instruction handed to `Sink::process_operation` (first conjunct: exactly
one instruction recorded and routed — sent as a single message when
streaming, enqueued when buffering, applied to the held executor in local
replay), and for a `get_template_contents` whose target has no cached
contents handle (third conjunct), but a `get_template_contents` on a
target with a cached contents handle emits *no* instruction at all and
leaves the Sink untouched (second conjunct; `claim_C6_counterexample`),
so the per-callback count is one except for that cached case, where it is
zero. -/
theorem claim_C6_amended {σ : Type} :
    (∀ (s s' : Sink) (op : ParseOperation)
      (msgs : List (ParserThreadToMainThreadMessage σ)),
      Sink.process_operation (σ := σ) s op = some (s', msgs) →
      s'.produced = s.produced ++ [op] ∧
      ModeStep (σ := σ) s.state s'.state msgs [op]) ∧
    (∀ (s : Sink) (target : ParseNode) (d : ParseNodeData) (c : ParseNode),
      Sink.get_parse_node_data s target.id = some d →
      d.contents = some c →
      Sink.get_template_contents (σ := σ) s target = some (s, c, [])) ∧
    (∀ (s s' : Sink) (target node : ParseNode) (d : ParseNodeData)
      (msgs : List (ParserThreadToMainThreadMessage σ)),
      Sink.get_parse_node_data s target.id = some d →
      d.contents = none →
      Sink.get_template_contents (σ := σ) s target = some (s', node, msgs) →
      s'.produced = s.produced ++
        [ParseOperation.getTemplateContents target.id node.id] ∧
      ModeStep (σ := σ) s.state s'.state msgs
        [ParseOperation.getTemplateContents target.id node.id]) := by
  refine ⟨?_, ?_, ?_⟩
  · intro s s' op msgs h
    obtain ⟨h₁, h₂, h₃, h₄, h₅⟩ := sink_process_operation_spec h
    exact ⟨h₄, h₅⟩
  · intro s target d c hd hc
    unfold Sink.get_template_contents
    rw [hd]
    simp only [Option.bind_eq_bind, Option.some_bind]
    rw [hc]
  · intro s s' target node d msgs hd hc h
    unfold Sink.get_template_contents at h
    rw [hd] at h
    simp only [Option.bind_eq_bind, Option.some_bind] at h
    rw [hc] at h
    simp only [Option.bind_eq_bind, Option.bind_eq_some] at h
    obtain ⟨⟨s₃, msgs₃⟩, hproc, heq⟩ := h
    simp only [Option.some_inj, Prod.mk.injEq] at heq
    obtain ⟨hs₃, hnode, hmsgs₃⟩ := heq
    subst hs₃ hnode hmsgs₃
    obtain ⟨h₁, h₂, h₃, h₄, h₅⟩ := sink_process_operation_spec hproc
    exact ⟨h₄, h₅⟩

/-- The first `get_template_contents` call on a fresh Sink. -/
def c10first : Sink × ParseNode × List (ParserThreadToMainThreadMessage (List String)) :=
  (Sink.get_template_contents (σ := List String) Sink.new ⟨0, none⟩).get (by decide)

theorem claim_C6_amended_witness :
    (({ Sink.new with
          produced := [ParseOperation.setQuirksMode ServoQuirksMode.quirks] } :
        Sink).produced = Sink.new.produced ++
        [ParseOperation.setQuirksMode ServoQuirksMode.quirks] ∧
      ModeStep (σ := List String) Sink.new.state
        ({ Sink.new with
             produced := [ParseOperation.setQuirksMode ServoQuirksMode.quirks] } :
          Sink).state
        [ParserThreadToMainThreadMessage.processOperation
          (ParseOperation.setQuirksMode ServoQuirksMode.quirks)]
        [ParseOperation.setQuirksMode ServoQuirksMode.quirks]) ∧
    Sink.get_template_contents (σ := List String) c10first.1 ⟨0, none⟩ =
      some (c10first.1, ⟨1, none⟩, []) :=
  ⟨(claim_C6_amended (σ := List String)).1 Sink.new _ _ _
      (rfl : Sink.process_operation (σ := List String) Sink.new
        (ParseOperation.setQuirksMode ServoQuirksMode.quirks) =
        some ({ Sink.new with
                  produced := [ParseOperation.setQuirksMode ServoQuirksMode.quirks] },
              [ParserThreadToMainThreadMessage.processOperation
                (ParseOperation.setQuirksMode ServoQuirksMode.quirks)])),
   (claim_C6_amended (σ := List String)).2.1 c10first.1 ⟨0, none⟩
      ⟨some ⟨1, none⟩, false⟩ ⟨1, none⟩ rfl rfl⟩

/-- Claim C6, counterexample to "every callback emits exactly one
Instruction".  On a fresh Sink, the first `get_template_contents` for the
document handle emits one instruction, but the second call for the same
target — the cached case — returns the same contents handle and emits
zero instructions, not one. -/
theorem claim_C6_counterexample :
    (Sink.get_template_contents (σ := List String) Sink.new ⟨0, none⟩).map
        (fun r => (r.2.1, r.2.2.length)) = some (⟨1, none⟩, 1) ∧
    ((Sink.get_template_contents (σ := List String) Sink.new ⟨0, none⟩).bind
        (fun r => (Sink.get_template_contents (σ := List String) r.1 ⟨0, none⟩).map
          (fun r₂ => (r₂.2.1, r₂.2.2.length)))) = some (⟨1, none⟩, 0) ∧
    ¬ ((0 : Nat) = 1) :=
  ⟨rfl, rfl, by decide⟩

/-- Claim C10, confirmed.  `get_template_contents` is idempotent per
target: on a well-formed Sink whose target handle has no cached contents,
the call mints the next fresh handle, emits exactly one
`GetTemplateContents` instruction, and caches the handle; calling again on
the resulting Sink for the same target returns the identical cached
handle, emits no instruction, and leaves the Sink unchanged. -/
theorem claim_C10 {σ : Type} {s s' : Sink} {target node : ParseNode}
    {d : ParseNodeData} {msgs : List (ParserThreadToMainThreadMessage σ)}
    (hinv : sinkInv s)
    (hd : Sink.get_parse_node_data s target.id = some d)
    (hc : d.contents = none)
    (h : Sink.get_template_contents (σ := σ) s target = some (s', node, msgs)) :
    node.id = s.next_parse_node_id ∧
    s'.next_parse_node_id = s.next_parse_node_id + 1 ∧
    s'.produced = s.produced ++
      [ParseOperation.getTemplateContents target.id node.id] ∧
    Sink.get_template_contents (σ := σ) s' target = some (s', node, []) := by
  have htlt : target.id < s.next_parse_node_id :=
    hinv.2.2 target.id (alookup_mem_akeys hd)
  have hne : target.id ≠ s.next_parse_node_id := Nat.ne_of_lt htlt
  unfold Sink.get_template_contents at h
  rw [hd] at h
  simp only [Option.bind_eq_bind, Option.some_bind] at h
  rw [hc] at h
  simp only [Option.bind_eq_bind, Option.bind_eq_some] at h
  obtain ⟨⟨s₃, msgs₃⟩, hproc, heq⟩ := h
  simp only [Option.some_inj, Prod.mk.injEq] at heq
  obtain ⟨hs₃, hnode, hmsgs₃⟩ := heq
  obtain ⟨hnext, hdata, hline, hprod, hmode⟩ := sink_process_operation_spec hproc
  have hd' : Sink.get_parse_node_data s₃ target.id =
      some { d with contents := some s.new_parse_node.1 } := by
    show alookup s₃.parse_node_data target.id = _
    rw [hdata]
    have hstep : alookup (alupdate ((s.next_parse_node_id, ParseNodeData.default) ::
        s.parse_node_data) target.id
        (fun d₀ => { d₀ with contents := some s.new_parse_node.1 })) target.id =
        some { d with contents := some s.new_parse_node.1 } := by
      rw [alookup_alupdate]
      simp only [eq_self_iff_true, if_true, ite_true]
      have hlk : alookup ((s.next_parse_node_id, ParseNodeData.default) ::
          s.parse_node_data) target.id = some d := by
        show (if s.next_parse_node_id = target.id then some ParseNodeData.default
          else alookup s.parse_node_data target.id) = some d
        rw [if_neg (fun hx => hne hx.symm)]
        exact hd
      rw [hlk]
      rfl
    exact hstep
  refine ⟨?_, ?_, ?_, ?_⟩
  · rw [← hnode]
    rfl
  · rw [← hs₃]
    exact hnext.trans rfl
  · rw [← hs₃, ← hnode]
    exact hprod.trans rfl
  · rw [← hs₃, ← hnode]
    unfold Sink.get_template_contents
    rw [hd']
    simp only [Option.bind_eq_bind, Option.some_bind]

theorem claim_C10_witness :
    (⟨1, none⟩ : ParseNode).id = Sink.new.next_parse_node_id ∧
    (c10first.1 : Sink).next_parse_node_id = Sink.new.next_parse_node_id + 1 ∧
    c10first.1.produced = Sink.new.produced ++
      [ParseOperation.getTemplateContents 0 1] ∧
    Sink.get_template_contents (σ := List String) c10first.1 ⟨0, none⟩ =
      some (c10first.1, ⟨1, none⟩, []) :=
  claim_C10
    (⟨of_decide_eq_true rfl, of_decide_eq_true rfl, of_decide_eq_true rfl⟩ :
      sinkInv Sink.new)
    (rfl : Sink.get_parse_node_data Sink.new (0 : Nat) = some ParseNodeData.default)
    rfl
    (rfl : Sink.get_template_contents (σ := List String) Sink.new ⟨0, none⟩ =
      some (c10first.1, c10first.2.1, c10first.2.2))

/-- Claim C7, confirmed.  For an `AssociateWithForm` instruction the
executor first resolves the tree anchor: `element` when there is no
`prev_element`; otherwise `element` exactly when it has a parent, else
`prev_element`.  It then checks that the anchor and the form are in the
same structural subtree, and when they are not the instruction is
silently a no-op: the call succeeds, the tree and the handle registry are
unchanged, and no form owner is recorded. -/
theorem claim_C7 {e e' : ParseOperationExecutor}
    {target form element : ParseNodeId} {prev : Option ParseNodeId}
    (h : e.process_operation
      (ParseOperation.associateWithForm target form element prev) = some e') :
    ∃ anchor,
      (match prev with
       | none => anchor = element
       | some p => ∃ hp, e.has_parent_node element = some hp ∧
           anchor = if hp then element else p) ∧
      ∃ same, e.same_tree anchor form = some same ∧
        (same = false → e'.dom = e.dom ∧ e'.nodes = e.nodes ∧
          e'.dom.formOwner = e.dom.formOwner) := by
  unfold ParseOperationExecutor.process_operation at h
  rw [Option.map_eq_some'] at h
  obtain ⟨e₀, hcore, he'⟩ := h
  unfold ParseOperationExecutor.processOperationCore at hcore
  simp only [Option.bind_eq_bind, Option.bind_eq_some] at hcore
  obtain ⟨docLive, hdoc, hcore⟩ := hcore
  obtain ⟨docNode, hdocNode, hcore⟩ := hcore
  split at hcore
  case isFalse => exact absurd hcore (by simp)
  case isTrue hkind =>
  unfold ParseOperationExecutor.processOperationBody at hcore
  cases prev with
  | none =>
      simp only [Option.bind_eq_bind, Option.some_bind, Option.bind_eq_some] at hcore
      obtain ⟨same, hsame, hcore⟩ := hcore
      refine ⟨element, rfl, same, hsame, ?_⟩
      intro hsf
      rw [hsf] at hcore
      simp only [eq_self_iff_true, if_true, ite_true, Option.some_inj] at hcore
      rw [← hcore] at he'
      rw [← he']
      exact ⟨rfl, rfl, rfl⟩
  | some p =>
      simp only [Option.bind_eq_bind, Option.some_bind, Option.bind_eq_some] at hcore
      obtain ⟨hp, hhp, same, hsame, hcore⟩ := hcore
      refine ⟨if hp then element else p, ⟨hp, hhp, rfl⟩, same, hsame, ?_⟩
      intro hsf
      rw [hsf] at hcore
      simp only [eq_self_iff_true, if_true, ite_true, Option.some_inj] at hcore
      rw [← hcore] at he'
      rw [← he']
      exact ⟨rfl, rfl, rfl⟩

/-- A concrete executor for the `AssociateWithForm` no-op case: the
document, an `input` element (handle 5) and a `form` element (handle 7)
in two disconnected subtrees. -/
def c7exec : ParseOperationExecutor :=
  { nodes := [(0, 0), (5, 1), (7, 2)]
    dom := ⟨[(0, ⟨.document, "#document", [], false⟩),
             (1, ⟨.element, "input", [], false⟩),
             (2, ⟨.element, "form", [], false⟩)], 3, [], [], [], .noQuirks⟩
    applied := [] }

/-- `c7exec` after the cross-tree `AssociateWithForm`. -/
def c7exec' : ParseOperationExecutor :=
  (c7exec.process_operation (ParseOperation.associateWithForm 5 7 5 none)).get
    (by decide)

/-- The worker's reaction to `End` from the initial state. -/
def endStep :
    WorkerState (List String) × List (ParserThreadToMainThreadMessage (List String)) :=
  (workerStep TM sysInit.worker MainThreadToParserThreadMessage.endMsg).get (by decide)

theorem claim_C7_witness :
    ∃ anchor,
      (match (none : Option ParseNodeId) with
       | none => anchor = (5 : ParseNodeId)
       | some p => ∃ hp, c7exec.has_parent_node 5 = some hp ∧
           anchor = if hp then 5 else p) ∧
      ∃ same, c7exec.same_tree anchor 7 = some same ∧
        (same = false → c7exec'.dom = c7exec.dom ∧ c7exec'.nodes = c7exec.nodes ∧
          c7exec'.dom.formOwner = c7exec.dom.formOwner) :=
  claim_C7 (rfl : c7exec.process_operation
    (ParseOperation.associateWithForm 5 7 5 none) = some c7exec')

/-- Claim C9, confirmed.  Under the executing-state channel discipline
(`end()` is called with the channel drained and the worker streaming),
when the worker accepts `End` — it emits its remaining instructions as
individual `ProcessOperation` messages followed by exactly one end
acknowledgement and terminates (`workerStep_end_spec`) — and the trailing
instructions apply cleanly, `end()` returns: it applies that finite
message sequence in order and completes at the single acknowledgement,
leaving the worker terminated and the channel empty. -/
theorem claim_C9 {σ : Type} {M : TokModel σ} {sys : SystemState σ}
    {w' : WorkerState σ} {outs : List (ParserThreadToMainThreadMessage σ)}
    (hchan : sys.chan = [])
    (hsink : sys.worker.tok.sink.state = SinkState.sendingParseOps)
    (hws : workerStep M sys.worker MainThreadToParserThreadMessage.endMsg =
      some (w', outs))
    (happly : (sys.main.executor.applyOps (outs.filterMap msgOp)).isSome = true) :
    ∃ sys' ops e',
      SystemState.endParse M sys = some sys' ∧
      outs = ops.map ParserThreadToMainThreadMessage.processOperation ++
        [ParserThreadToMainThreadMessage.endMsg] ∧
      sys.main.executor.applyOps ops = some e' ∧
      sys'.main.executor = e' ∧
      sys'.main.executor.applied = sys.main.executor.applied ++ ops ∧
      sys'.chan = [] ∧
      sys'.worker.done = true ∧
      sys'.sentLog = sys.sentLog ++
        ops.map ParserThreadToMainThreadMessage.processOperation ++
        [ParserThreadToMainThreadMessage.endMsg] ∧
      sys'.toWorkerLog = sys.toWorkerLog ++ [MainThreadToParserThreadMessage.endMsg] := by
  obtain ⟨ops, msgs, hstep, hdonef, hdone', hint, houts⟩ := workerStep_end_spec hws
  have hmode := hstep.2.2.2
  rw [hsink] at hmode
  obtain ⟨hstate', hmsgs⟩ := hmode
  subst hmsgs
  have hfm : outs.filterMap msgOp = ops := by
    rw [houts]
    exact filterMap_msgOp_map ops _ rfl
  rw [hfm] at happly
  obtain ⟨e', happly'⟩ := Option.isSome_iff_exists.mp happly
  have hloop : endLoop (σ := σ) sys.main.executor (sys.chan ++ outs) =
      some (e', []) := by
    rw [hchan, List.nil_append, houts, endLoop_processOps, happly']
    simp only [Option.some_bind]
    exact endLoop_end e' []
  have hrun : SystemState.endParse M sys = some
      { main := { sys.main with executor := e' }
        worker := w'
        chan := []
        sentLog := sys.sentLog ++ outs
        toWorkerLog := sys.toWorkerLog ++ [MainThreadToParserThreadMessage.endMsg] } := by
    unfold SystemState.endParse sendToWorker
    rw [hws]
    simp only [Option.map_some', Option.bind_eq_bind, Option.some_bind]
    rw [show endLoop (σ := σ) sys.main.executor (sys.chan ++ outs) = some (e', [])
      from hloop]
    rfl
  refine ⟨_, ops, e', hrun, houts, happly', rfl, ?_, rfl, hdone', ?_, rfl⟩
  · exact (applyOps_spec happly').1
  · show sys.sentLog ++ outs = _
    rw [houts, List.append_assoc]

theorem claim_C9_witness :
    ∃ sys' ops e',
      SystemState.endParse TM sysInit = some sys' ∧
      endStep.2 = ops.map ParserThreadToMainThreadMessage.processOperation ++
        [ParserThreadToMainThreadMessage.endMsg] ∧
      sysInit.main.executor.applyOps ops = some e' ∧
      sys'.main.executor = e' ∧
      sys'.main.executor.applied = sysInit.main.executor.applied ++ ops ∧
      sys'.chan = [] ∧
      sys'.worker.done = true ∧
      sys'.sentLog = sysInit.sentLog ++
        ops.map ParserThreadToMainThreadMessage.processOperation ++
        [ParserThreadToMainThreadMessage.endMsg] ∧
      sys'.toWorkerLog = sysInit.toWorkerLog ++
        [MainThreadToParserThreadMessage.endMsg] :=
  claim_C9 (M := TM) rfl rfl
    (rfl : workerStep TM sysInit.worker MainThreadToParserThreadMessage.endMsg =
      some (endStep.1, endStep.2))
    rfl

/-- Claim C8, confirmed.  Handle minting is strictly increasing and starts
above zero: a fresh Sink's counter is `1`, and every mint hands out the
current counter and bumps it.  In every reachable executing state — the
reachable states include rollback-and-retry, since
`end_speculative_parsing` is one of the `Reachable` transitions — the
worker Sink's counter is at least `1`, every handle it has registered is
below the counter and registered once, the executor's handle registry is
duplicate-free (no handle ever denotes two different created nodes within
the executor's lifetime) with every handle below the worker's counter, and
handle `0` is bound to live node `0`, the document root. -/
theorem claim_C8 {σ : Type} {M : TokModel σ} {sys : SystemState σ}
    (hreach : Reachable M sys)
    (hstate : sys.main.state = TokenizerState.executingParseOps) :
    (Sink.new.next_parse_node_id = 1 ∧
      ∀ s : Sink, (s.new_parse_node).1.id = s.next_parse_node_id ∧
        (s.new_parse_node).2.next_parse_node_id = s.next_parse_node_id + 1) ∧
    1 ≤ sys.worker.tok.sink.next_parse_node_id ∧
    (akeys sys.worker.tok.sink.parse_node_data).Nodup ∧
    (∀ k ∈ akeys sys.worker.tok.sink.parse_node_data,
      k < sys.worker.tok.sink.next_parse_node_id) ∧
    (akeys sys.main.executor.nodes).Nodup ∧
    (∀ k ∈ akeys sys.main.executor.nodes,
      k < sys.worker.tok.sink.next_parse_node_id) ∧
    alookup sys.main.executor.nodes 0 = some 0 ∧
    sys.main.executor.dom.kindAt 0 = some NodeKind.document := by
  have hinv := reachable_inv hreach
  obtain ⟨hchan, hsink, hsinkinv, hexecinv⟩ := hinv.1 hstate
  obtain ⟨hnd, hb, h0, hdom⟩ := hexecinv
  exact ⟨⟨rfl, fun s => ⟨rfl, rfl⟩⟩, hsinkinv.1, hsinkinv.2.1, hsinkinv.2.2,
    hnd, hb, h0, hdom.1⟩

theorem claim_C8_witness :
    (Sink.new.next_parse_node_id = 1 ∧
      ∀ s : Sink, (s.new_parse_node).1.id = s.next_parse_node_id ∧
        (s.new_parse_node).2.next_parse_node_id = s.next_parse_node_id + 1) ∧
    1 ≤ rollFin.1.worker.tok.sink.next_parse_node_id ∧
    (akeys rollFin.1.worker.tok.sink.parse_node_data).Nodup ∧
    (∀ k ∈ akeys rollFin.1.worker.tok.sink.parse_node_data,
      k < rollFin.1.worker.tok.sink.next_parse_node_id) ∧
    (akeys rollFin.1.main.executor.nodes).Nodup ∧
    (∀ k ∈ akeys rollFin.1.main.executor.nodes,
      k < rollFin.1.worker.tok.sink.next_parse_node_id) ∧
    alookup rollFin.1.main.executor.nodes 0 = some 0 ∧
    rollFin.1.main.executor.dom.kindAt 0 = some NodeKind.document :=
  claim_C8 (M := TM)
    (Reachable.endSpec
      (Reachable.feed
        (Reachable.startSpec (Reachable.init ([] : List String) none)
          (rfl : SystemState.start_speculative_parsing TM sysInit inA =
            some (specMid.1, specMid.2)))
        (rfl : SystemState.feed TM specMid.1 ⟨["w"], none⟩ =
          some (rollMid.1, rollMid.2.1, rollMid.2.2)))
      (rfl : SystemState.end_speculative_parsing TM rollMid.1 specMid.2 false =
        some (rollFin.1, rollFin.2)))
    rfl

end AsyncHtml

